import Mathlib

/-!
Verification of the quick-sort trace engine of `src/App.tsx` (the
`generateSteps` function and its inner `quickSort`/partition loop).

The engine is embedded shallowly:
* `ArrayBar` and `Step` mirror the `ArrayBar` and `Step` interfaces.
* JavaScript array reads/writes at possibly-signed indices are modelled by
  `getI`/`setI` (out-of-range reads return a junk `default`; all reads and
  writes performed by the algorithm are proved in range).
* The destructuring swap `[arr[i], arr[j]] = [arr[j], arr[i]]` is `swapI`.
* The inner `for` loop of `quickSort` (source lines 89-117) is the tail
  recursive `partitionLoop`; the recursive `quickSort` (lines 70-133)
  threads the mutable `steps` accumulator and `partitionCount` counter
  explicitly; `generateSteps` (lines 56-148) assembles the trace.
* The engine compares element values only through `value <= pivot` and
  prints them only through string interpolation, so the embedding is
  parametric in the value type together with its `le` test and its
  string conversion.  `buildTrace` instantiates it at `Int` (the spec's
  numeric inputs); `buildTraceJS` instantiates it at `JSVal`, which adds
  the non-numeric (NaN-like) runtime value, for the input-validation claim.
-/

namespace QuickShort

inductive BarState where
  | default
  | pivot
  | comparing
  | sorted
  | active
  deriving DecidableEq, Repr

/-- `interface ArrayBar` of the source: a value with a display-state tag. -/
structure ArrayBar (α : Type) where
  value : α
  state : BarState
  deriving DecidableEq, Repr

instance {α : Type} [Inhabited α] : Inhabited (ArrayBar α) :=
  ⟨⟨default, BarState.default⟩⟩

/-- `interface Step` of the source: one snapshot of the trace. -/
structure Step (α : Type) where
  array : List (ArrayBar α)
  pivotIndex : Int
  comparing : List Int
  activeLineNumber : Nat
  description : String
  partitionInfo : String
  deriving DecidableEq, Repr

instance {α : Type} [Inhabited α] : Inhabited (Step α) :=
  ⟨⟨[], -1, [], 0, "", ""⟩⟩

/-- JavaScript array read `l[i]` at a signed index; out of range gives junk. -/
def getI {β : Type} [Inhabited β] (l : List β) (i : Int) : β :=
  if h : 0 ≤ i ∧ i.toNat < l.length then l.get ⟨i.toNat, h.2⟩ else default

/-- JavaScript array write `l[i] = b` at a signed index (in range in all
executions of the engine; out of range modelled as a no-op). -/
def setI {β : Type} (l : List β) (i : Int) (b : β) : List β :=
  if 0 ≤ i then l.set i.toNat b else l

/-- The destructuring swap `[l[i], l[j]] = [l[j], l[i]]`. -/
def swapI {β : Type} [Inhabited β] (l : List β) (i j : Int) : List β :=
  setI (setI l i (getI l j)) j (getI l i)

/-- `l.map((x, idx) => f idx x)` with the running index made explicit. -/
def mapWithIdxFrom {β γ : Type} (n : Nat) (f : Nat → β → γ) : List β → List γ
  | [] => []
  | b :: t => f n b :: mapWithIdxFrom (n + 1) f t

/-- JavaScript `l.map((x, idx) => f idx x)`. -/
def mapWithIdx {β γ : Type} (f : Nat → β → γ) (l : List β) : List γ :=
  mapWithIdxFrom 0 f l

section Engine

variable {α : Type} [Inhabited α] (le : α → α → Bool) (str : α → String)

/-- The snapshot pushed at the head of every loop iteration
(source lines 90-102): states re-derived per position. -/
def compareStep (pivot : α) (low high j : Int) (arr : List (ArrayBar α)) : Step α :=
  { array := mapWithIdx (fun idx bar =>
      { bar with state :=
          if (idx : Int) = high then BarState.pivot
          else if (idx : Int) = j then BarState.comparing
          else if low ≤ (idx : Int) ∧ (idx : Int) ≤ high then BarState.active
          else BarState.default }) arr
    pivotIndex := high
    comparing := [j]
    activeLineNumber := 3
    description := "Comparing " ++ str (getI arr j).value ++ " with pivot " ++ str pivot
    partitionInfo := "Comparing elements in partition [" ++ toString low ++ " to "
      ++ toString high ++ "]" }

/-- The snapshot pushed after a swap (source lines 108-115): a direct copy
of the post-swap working array, no state re-derivation. -/
def swapStep (high i j : Int) (arr2 : List (ArrayBar α)) : Step α :=
  { array := arr2
    pivotIndex := high
    comparing := [i, j]
    activeLineNumber := 4
    description := "Swapped " ++ str (getI arr2 i).value ++ " and " ++ str (getI arr2 j).value
    partitionInfo := "Swapping elements to maintain partition order" }

/-- The `for (let j = low; j < high; j++)` loop of `quickSort`
(source lines 89-117), threading the working array, the boundary index `i`
and the `steps` accumulator. -/
def partitionLoop (pivot : α) (low high : Int) (j : Int) (arr : List (ArrayBar α))
    (i : Int) (steps : List (Step α)) : List (ArrayBar α) × Int × List (Step α) :=
  if h : j < high then
    let steps1 := steps ++ [compareStep str pivot low high j arr]
    if le (getI arr j).value pivot then
      let arr2 := swapI arr (i + 1) j
      let steps2 := steps1 ++ [swapStep str high (i + 1) j arr2]
      partitionLoop pivot low high (j + 1) arr2 (i + 1) steps2
    else
      partitionLoop pivot low high (j + 1) arr i steps1
  else (arr, i, steps)
termination_by (high - j).toNat
decreasing_by all_goals omega

/-- The boundary index `i` never decreases across the comparison loop. -/
theorem partitionLoop_i_mono (pivot : α) (low high j : Int) (arr : List (ArrayBar α))
    (i : Int) (steps : List (Step α)) :
    i ≤ (partitionLoop le str pivot low high j arr i steps).2.1 := by
  induction j, arr, i, steps using partitionLoop.induct le str pivot low high with
  | case1 j arr i steps h steps1 hle arr2 steps2 ih =>
    rw [partitionLoop]
    simp only [h, dite_true, hle, if_true]
    exact le_trans (by omega) ih
  | case2 j arr i steps h steps1 hle ih =>
    rw [partitionLoop]
    simp only [h, dite_true, hle, if_false]
    exact ih
  | case3 j arr i steps h =>
    rw [partitionLoop]
    simp [h]

/-- As long as `i < j ≤ high` on entry, the boundary index stays below `high`. -/
theorem partitionLoop_i_lt (pivot : α) (low high j : Int) (arr : List (ArrayBar α))
    (i : Int) (steps : List (Step α)) (hij : i < j) (hjh : j ≤ high) :
    (partitionLoop le str pivot low high j arr i steps).2.1 < high := by
  induction j, arr, i, steps using partitionLoop.induct le str pivot low high with
  | case1 j arr i steps h steps1 hle arr2 steps2 ih =>
    rw [partitionLoop]
    simp only [h, dite_true, hle, if_true]
    exact ih (by omega) (by omega)
  | case2 j arr i steps h steps1 hle ih =>
    rw [partitionLoop]
    simp only [h, dite_true, hle, if_false]
    exact ih (by omega) (by omega)
  | case3 j arr i steps h =>
    rw [partitionLoop]
    simp only [h, dite_false]
    omega

/-- The snapshot pushed on entering a partition (source lines 76-87). -/
def partitionStartStep (low high : Int) (arr : List (ArrayBar α)) : Step α :=
  { array := mapWithIdx (fun idx bar =>
      { bar with state :=
          if (idx : Int) = high then BarState.pivot
          else if low ≤ (idx : Int) ∧ (idx : Int) ≤ high then BarState.active
          else BarState.default }) arr
    pivotIndex := high
    comparing := []
    activeLineNumber := 2
    description := "Working with partition [" ++ toString low ++ " to " ++ toString high ++ "]"
    partitionInfo := "Working on partition [" ++ toString low ++ " to " ++ toString high
      ++ "]. Since partition size == " ++ toString (high - low + 1)
      ++ ", elements inside partition will be sorted." }

/-- The snapshot pushed after the pivot is placed (source lines 121-128):
again a direct copy of the working array. -/
def pivotPlacedStep (pivot : α) (i : Int) (pc : Nat) (arr2 : List (ArrayBar α)) : Step α :=
  { array := arr2
    pivotIndex := i + 1
    comparing := []
    activeLineNumber := 5
    description := "Placed pivot " ++ str pivot ++ " at position " ++ toString (i + 1)
    partitionInfo := "Partition " ++ toString pc ++ " complete" }

/-- The recursive `quickSort` closure of `generateSteps` (source lines
70-133).  The mutable working array, the captured `steps` accumulator and
the captured `partitionCount` counter are threaded explicitly. -/
def quickSort (low high : Int) (arr : List (ArrayBar α)) (pc : Nat)
    (steps : List (Step α)) : List (ArrayBar α) × Nat × List (Step α) :=
  if hlh : low < high then
    let pivot := (getI arr high).value
    let steps1 := steps ++ [partitionStartStep low high arr]
    match hr : partitionLoop le str pivot low high low arr (low - 1) steps1 with
    | (arrP, i, stepsP) =>
      let arr2 := swapI arrP (i + 1) high
      let steps2 := stepsP ++ [pivotPlacedStep str pivot i (pc + 1) arr2]
      match quickSort low i arr2 (pc + 1) steps2 with
      | (arrL, pcL, stepsL) => quickSort (i + 2) high arrL pcL stepsL
  else (arr, pc, steps)
termination_by (high - low).toNat
decreasing_by
  · have h1 := partitionLoop_i_mono le str pivot low high low arr (low - 1) steps1
    have h2 := partitionLoop_i_lt le str pivot low high low arr (low - 1) steps1
      (by omega) (by omega)
    rw [hr] at h1 h2
    simp only at h1 h2
    omega
  · have h1 := partitionLoop_i_mono le str pivot low high low arr (low - 1) steps1
    have h2 := partitionLoop_i_lt le str pivot low high low arr (low - 1) steps1
      (by omega) (by omega)
    rw [hr] at h1 h2
    simp only at h1 h2
    omega

/-- `generateSteps` (source lines 56-148): the trace builder. -/
def generateSteps (array : List α) : List (Step α) :=
  let bars : List (ArrayBar α) := array.map (fun value => ⟨value, BarState.default⟩)
  let steps0 : List (Step α) := [{
    array := bars
    pivotIndex := -1
    comparing := []
    activeLineNumber := 1
    description := "Starting Quick Sort algorithm"
    partitionInfo := "Initializing Quick Sort" }]
  match quickSort le str 0 ((array.length : Int) - 1) bars 0 steps0 with
  | (arrB, pc, stepsB) =>
    stepsB ++ [{
      array := arrB.map (fun bar => { bar with state := BarState.sorted })
      pivotIndex := -1
      comparing := []
      activeLineNumber := 6
      description := "Array is now sorted!"
      partitionInfo := "Quick Sort complete after " ++ toString pc ++ " partitions" }]

end Engine

/-- Integer comparison `a <= b`, the comparison the engine performs on
numeric inputs. -/
def intLe (a b : Int) : Bool := a ≤ b

/-- JavaScript number-to-string conversion on integer values. -/
def intStr (n : Int) : String := toString n

/-- The engine on numeric inputs: the spec's `buildTrace`. -/
def buildTrace (l : List Int) : List (Step Int) :=
  generateSteps intLe intStr l

/-- A JavaScript runtime value reaching the engine: either a number or a
non-numeric (malformed) value, which behaves as NaN in comparisons. -/
inductive JSVal where
  | num (n : Int)
  | nan
  deriving DecidableEq, Repr

instance : Inhabited JSVal := ⟨JSVal.nan⟩

/-- JavaScript `a <= b`: any comparison involving a non-numeric value
(coerced to NaN) is false. -/
def jsLe : JSVal → JSVal → Bool
  | JSVal.num a, JSVal.num b => a ≤ b
  | _, _ => false

/-- JavaScript string conversion of the value. -/
def jsStr : JSVal → String
  | JSVal.num n => toString n
  | JSVal.nan => "NaN"

/-- The engine as it behaves on arbitrary runtime values, including
malformed (non-numeric) input elements. -/
def buildTraceJS (l : List JSVal) : List (Step JSVal) :=
  generateSteps jsLe jsStr l

theorem length_setI {β : Type} (l : List β) (i : Int) (b : β) :
    (setI l i b).length = l.length := by
  unfold setI
  split <;> simp

theorem length_swapI {β : Type} [Inhabited β] (l : List β) (i j : Int) :
    (swapI l i j).length = l.length := by
  unfold swapI
  rw [length_setI, length_setI]

theorem getI_eq_getElem {β : Type} [Inhabited β] (l : List β) (k : Nat) (h : k < l.length) :
    getI l (k : Int) = l[k] := by
  unfold getI
  rw [dif_pos ⟨by omega, by simpa using h⟩]
  simp

theorem getI_setI_self {β : Type} [Inhabited β] (l : List β) (i : Int) (b : β)
    (h0 : 0 ≤ i) (h1 : i < (l.length : Int)) : getI (setI l i b) i = b := by
  have hlen : i.toNat < l.length := by omega
  unfold setI
  rw [if_pos h0]
  unfold getI
  rw [dif_pos ⟨h0, by simpa using hlen⟩]
  simp

theorem getI_setI_ne {β : Type} [Inhabited β] (l : List β) (i k : Int) (b : β)
    (hk : k ≠ i) : getI (setI l i b) k = getI l k := by
  unfold getI setI
  by_cases h0 : 0 ≤ i
  · rw [if_pos h0]
    by_cases hk0 : 0 ≤ k ∧ k.toNat < l.length
    · rw [dif_pos ⟨hk0.1, by simpa using hk0.2⟩, dif_pos hk0]
      simp only [List.get_eq_getElem]
      have hne : i.toNat ≠ k.toNat := by omega
      exact List.getElem_set_ne hne _
    · rw [dif_neg (by simpa using hk0), dif_neg]
      simpa using hk0
  · rw [if_neg h0]

theorem getI_swapI_ne {β : Type} [Inhabited β] (l : List β) (i j k : Int)
    (hki : k ≠ i) (hkj : k ≠ j) : getI (swapI l i j) k = getI l k := by
  unfold swapI
  rw [getI_setI_ne _ _ _ _ hkj, getI_setI_ne _ _ _ _ hki]

theorem getI_swapI_right {β : Type} [Inhabited β] (l : List β) (i j : Int)
    (h0 : 0 ≤ j) (h1 : j < (l.length : Int)) : getI (swapI l i j) j = getI l i := by
  unfold swapI
  rw [getI_setI_self]
  · exact h0
  · rw [length_setI]
    exact h1

theorem getI_swapI_left {β : Type} [Inhabited β] (l : List β) (i j : Int)
    (hi0 : 0 ≤ i) (hi1 : i < (l.length : Int)) (hj0 : 0 ≤ j) (hj1 : j < (l.length : Int)) :
    getI (swapI l i j) i = getI l j := by
  by_cases hij : i = j
  · subst hij
    exact getI_swapI_right l i i hi0 hi1
  · unfold swapI
    rw [getI_setI_ne _ _ _ _ hij, getI_setI_self _ _ _ hi0 hi1]

theorem set_self_eq {β : Type} (l : List β) (n : Nat) (h : n < l.length) :
    l.set n l[n] = l := by
  induction l generalizing n with
  | nil => simp at h
  | cons a t ih =>
    cases n with
    | zero => simp
    | succ m => simpa using ih m (by simpa using h)

theorem setI_getI_self {β : Type} [Inhabited β] (l : List β) (i : Int)
    (h0 : 0 ≤ i) (h1 : i < (l.length : Int)) : setI l i (getI l i) = l := by
  unfold setI getI
  rw [if_pos h0, dif_pos ⟨h0, by omega⟩]
  simpa using set_self_eq l i.toNat (by omega)

theorem swapI_self {β : Type} [Inhabited β] (l : List β) (i : Int)
    (h0 : 0 ≤ i) (h1 : i < (l.length : Int)) : swapI l i i = l := by
  unfold swapI
  rw [setI_getI_self l i h0 h1]
  exact setI_getI_self l i h0 h1

theorem cons_set_perm {β : Type} (t : List β) (m : Nat) (x : β) (h : m < t.length) :
    (t[m] :: t.set m x).Perm (x :: t) := by
  induction t generalizing m with
  | nil => simp at h
  | cons y s ih =>
    cases m with
    | zero => simpa using List.Perm.swap x y s
    | succ k =>
      have hk : k < s.length := by simpa using h
      simpa using ((List.Perm.swap y (s[k]) (s.set k x)).trans
        ((ih k hk).cons y)).trans (List.Perm.swap x y s)

theorem set_set_perm_lt {β : Type} (l : List β) (a b : Nat) (hab : a < b)
    (ha : a < l.length) (hb : b < l.length) :
    ((l.set a l[b]).set b l[a]).Perm l := by
  induction l generalizing a b with
  | nil => simp at hb
  | cons x t ih =>
    cases a with
    | zero =>
      cases b with
      | zero => omega
      | succ m =>
        have hm : m < t.length := by simpa using hb
        simpa using cons_set_perm t m x hm
    | succ n =>
      cases b with
      | zero => omega
      | succ m =>
        have hn : n < t.length := by simpa using ha
        have hm : m < t.length := by simpa using hb
        simpa using (ih n m (by omega) hn hm).cons x

theorem set_set_perm {β : Type} (l : List β) (a b : Nat) (ha : a < l.length)
    (hb : b < l.length) : ((l.set a l[b]).set b l[a]).Perm l := by
  rcases Nat.lt_trichotomy a b with h | h | h
  · exact set_set_perm_lt l a b h ha hb
  · subst h
    rw [List.set_set, set_self_eq l a ha]
  · rw [List.set_comm _ _ _ (by omega)]
    exact set_set_perm_lt l b a h hb ha

theorem swapI_perm {β : Type} [Inhabited β] (l : List β) (i j : Int)
    (hi0 : 0 ≤ i) (hi1 : i < (l.length : Int)) (hj0 : 0 ≤ j) (hj1 : j < (l.length : Int)) :
    (swapI l i j).Perm l := by
  have hi : i.toNat < l.length := by omega
  have hj : j.toNat < l.length := by omega
  have e1 : getI l j = l[j.toNat] := by
    rw [← getI_eq_getElem l j.toNat hj]
    congr 1
    omega
  have e2 : getI l i = l[i.toNat] := by
    rw [← getI_eq_getElem l i.toNat hi]
    congr 1
    omega
  unfold swapI
  rw [e1, e2]
  simp only [setI, if_pos hi0, if_pos hj0]
  exact set_set_perm l i.toNat j.toNat hi hj

theorem length_mapWithIdxFrom {β γ : Type} (n : Nat) (f : Nat → β → γ) (l : List β) :
    (mapWithIdxFrom n f l).length = l.length := by
  induction l generalizing n with
  | nil => rfl
  | cons b t ih => simpa [mapWithIdxFrom] using ih (n + 1)

theorem length_mapWithIdx {β γ : Type} (f : Nat → β → γ) (l : List β) :
    (mapWithIdx f l).length = l.length := length_mapWithIdxFrom 0 f l

theorem map_value_mapWithIdxFrom {α : Type} (f : Nat → ArrayBar α → ArrayBar α)
    (hf : ∀ n b, (f n b).value = b.value) (n : Nat) (l : List (ArrayBar α)) :
    (mapWithIdxFrom n f l).map ArrayBar.value = l.map ArrayBar.value := by
  induction l generalizing n with
  | nil => rfl
  | cons b t ih => simp [mapWithIdxFrom, hf, ih]

theorem map_value_mapWithIdx {α : Type} (f : Nat → ArrayBar α → ArrayBar α)
    (hf : ∀ n b, (f n b).value = b.value) (l : List (ArrayBar α)) :
    (mapWithIdx f l).map ArrayBar.value = l.map ArrayBar.value :=
  map_value_mapWithIdxFrom f hf 0 l

theorem mem_setI {β : Type} {l : List β} {i : Int} {x b : β} (h : b ∈ setI l i x) :
    b ∈ l ∨ b = x := by
  unfold setI at h
  split at h
  · exact List.mem_or_eq_of_mem_set h
  · exact Or.inl h

theorem getI_mem_or_default {β : Type} [Inhabited β] (l : List β) (i : Int) :
    getI l i ∈ l ∨ getI l i = default := by
  unfold getI
  split
  · exact Or.inl (List.get_mem _ _ _)
  · exact Or.inr rfl

theorem all_default_swapI {α : Type} [Inhabited α] {l : List (ArrayBar α)} (i j : Int)
    (hd : ∀ b ∈ l, b.state = BarState.default) :
    ∀ b ∈ swapI l i j, b.state = BarState.default := by
  intro b hb
  unfold swapI at hb
  rcases mem_setI hb with hb1 | hb1
  · rcases mem_setI hb1 with hb2 | hb2
    · exact hd b hb2
    · subst hb2
      rcases getI_mem_or_default l j with hm | hm
      · exact hd _ hm
      · rw [hm]
        rfl
  · subst hb1
    rcases getI_mem_or_default l i with hm | hm
    · exact hd _ hm
    · rw [hm]
      rfl

section EngineLemmas

variable {α : Type} [Inhabited α] (le : α → α → Bool) (str : α → String)

theorem compareStep_values (pivot : α) (low high j : Int) (arr : List (ArrayBar α)) :
    (compareStep str pivot low high j arr).array.map ArrayBar.value
      = arr.map ArrayBar.value := by
  simp only [compareStep]
  apply map_value_mapWithIdx
  intro n b
  rfl

theorem partitionStartStep_values (low high : Int) (arr : List (ArrayBar α)) :
    (partitionStartStep low high arr).array.map ArrayBar.value
      = arr.map ArrayBar.value := by
  simp only [partitionStartStep]
  apply map_value_mapWithIdx
  intro n b
  rfl

theorem partitionLoop_length (pivot : α) (low high j i : Int) (arr : List (ArrayBar α))
    (steps : List (Step α)) :
    (partitionLoop le str pivot low high j arr i steps).1.length = arr.length := by
  induction j, arr, i, steps using partitionLoop.induct le str pivot low high with
  | case1 j arr i steps h steps1 hle arr2 steps2 ih =>
    rw [partitionLoop]
    simp only [h, dite_true, hle, if_true]
    rw [ih]
    simp only [arr2]
    exact length_swapI arr (i + 1) j
  | case2 j arr i steps h steps1 hle ih =>
    rw [partitionLoop]
    simp only [h, dite_true, hle, if_false]
    exact ih
  | case3 j arr i steps h =>
    rw [partitionLoop]
    simp [h]

theorem partitionLoop_perm (pivot : α) (low high j i : Int) (arr : List (ArrayBar α))
    (steps : List (Step α)) (hlow : 0 ≤ low) (hi : low - 1 ≤ i) (hij : i < j)
    (hhl : high ≤ (arr.length : Int)) :
    ((partitionLoop le str pivot low high j arr i steps).1).Perm arr := by
  induction j, arr, i, steps using partitionLoop.induct le str pivot low high with
  | case1 j arr i steps h steps1 hle arr2 steps2 ih =>
    rw [partitionLoop]
    simp only [h, dite_true, hle, if_true]
    have hlen : arr2.length = arr.length := by
      simp only [arr2]
      exact length_swapI arr (i + 1) j
    have hperm : arr2.Perm arr := by
      simp only [arr2]
      exact swapI_perm arr (i + 1) j (by omega) (by omega) (by omega) (by omega)
    exact (ih (by omega) (by omega) (by omega)).trans hperm
  | case2 j arr i steps h steps1 hle ih =>
    rw [partitionLoop]
    simp only [h, dite_true, hle, if_false]
    exact ih (by omega) (by omega) hhl
  | case3 j arr i steps h =>
    rw [partitionLoop]
    simp [h]

theorem partitionLoop_getI_outside (pivot : α) (low high j i : Int)
    (arr : List (ArrayBar α)) (steps : List (Step α)) (hi : low - 1 ≤ i) (hij : i < j)
    (k : Int) (hk : k < low ∨ high ≤ k) :
    getI (partitionLoop le str pivot low high j arr i steps).1 k = getI arr k := by
  induction j, arr, i, steps using partitionLoop.induct le str pivot low high with
  | case1 j arr i steps h steps1 hle arr2 steps2 ih =>
    rw [partitionLoop]
    simp only [h, dite_true, hle, if_true]
    rw [ih (by omega) (by omega)]
    simp only [arr2]
    exact getI_swapI_ne arr (i + 1) j k (by omega) (by omega)
  | case2 j arr i steps h steps1 hle ih =>
    rw [partitionLoop]
    simp only [h, dite_true, hle, if_false]
    exact ih (by omega) (by omega)
  | case3 j arr i steps h =>
    rw [partitionLoop]
    simp [h]

theorem partitionLoop_transfer (pivot : α) (low high j i : Int)
    (arr : List (ArrayBar α)) (steps : List (Step α)) (hlow : 0 ≤ low)
    (hi : low - 1 ≤ i) (hij : i < j) (hhl : high ≤ (arr.length : Int)) :
    ∀ k, low ≤ k → k < high →
      ∃ m, low ≤ m ∧ m < high ∧
        getI (partitionLoop le str pivot low high j arr i steps).1 k = getI arr m := by
  induction j, arr, i, steps using partitionLoop.induct le str pivot low high with
  | case1 j arr i steps h steps1 hle arr2 steps2 ih =>
    rw [partitionLoop]
    simp only [h, dite_true, hle, if_true]
    intro k hk1 hk2
    have hlen : arr2.length = arr.length := by
      simp only [arr2]
      exact length_swapI arr (i + 1) j
    obtain ⟨m, hm1, hm2, hm3⟩ := ih (by omega) (by omega) (by omega) k hk1 hk2
    have harr2 : arr2 = swapI arr (i + 1) j := rfl
    by_cases e1 : m = i + 1
    · refine ⟨j, by omega, by omega, ?_⟩
      rw [hm3, e1, harr2]
      exact getI_swapI_left arr (i + 1) j (by omega) (by omega) (by omega) (by omega)
    · by_cases e2 : m = j
      · refine ⟨i + 1, by omega, by omega, ?_⟩
        rw [hm3, e2, harr2]
        exact getI_swapI_right arr (i + 1) j (by omega) (by omega)
      · refine ⟨m, hm1, hm2, ?_⟩
        rw [hm3, harr2]
        exact getI_swapI_ne arr (i + 1) j m e1 e2
  | case2 j arr i steps h steps1 hle ih =>
    rw [partitionLoop]
    simp only [h, dite_true, hle, if_false]
    exact ih (by omega) (by omega) hhl
  | case3 j arr i steps h =>
    rw [partitionLoop]
    simp only [h, dite_false]
    intro k hk1 hk2
    exact ⟨k, hk1, hk2, rfl⟩

theorem partitionLoop_partition (pivot : α) (low high j i : Int)
    (arr : List (ArrayBar α)) (steps : List (Step α)) (hlow : 0 ≤ low)
    (hi : low - 1 ≤ i) (hij : i < j) (hjh : j ≤ high) (hhl : high ≤ (arr.length : Int))
    (hle1 : ∀ k, low ≤ k → k ≤ i → le (getI arr k).value pivot = true)
    (hgt1 : ∀ k, i < k → k < j → le (getI arr k).value pivot = false) :
    (∀ k, low ≤ k → k ≤ (partitionLoop le str pivot low high j arr i steps).2.1 →
      le (getI (partitionLoop le str pivot low high j arr i steps).1 k).value pivot = true) ∧
    (∀ k, (partitionLoop le str pivot low high j arr i steps).2.1 < k → k < high →
      le (getI (partitionLoop le str pivot low high j arr i steps).1 k).value pivot = false) := by
  induction j, arr, i, steps using partitionLoop.induct le str pivot low high with
  | case1 j arr i steps h steps1 hle arr2 steps2 ih =>
    rw [partitionLoop]
    simp only [h, dite_true, hle, if_true]
    have harr2 : arr2 = swapI arr (i + 1) j := rfl
    have hlen : arr2.length = arr.length := by
      rw [harr2]
      exact length_swapI arr (i + 1) j
    refine ih (by omega) (by omega) (by omega) (by omega) ?_ ?_
    · intro k hk1 hk2
      by_cases e1 : k = i + 1
      · rw [harr2, e1, getI_swapI_left arr (i + 1) j (by omega) (by omega) (by omega) (by omega)]
        exact hle
      · rw [harr2, getI_swapI_ne arr (i + 1) j k e1 (by omega)]
        exact hle1 k hk1 (by omega)
    · intro k hk1 hk2
      by_cases e2 : k = j
      · rw [harr2, e2, getI_swapI_right arr (i + 1) j (by omega) (by omega)]
        exact hgt1 (i + 1) (by omega) (by omega)
      · rw [harr2, getI_swapI_ne arr (i + 1) j k (by omega) e2]
        exact hgt1 k (by omega) (by omega)
  | case2 j arr i steps h steps1 hle ih =>
    rw [partitionLoop]
    simp only [h, dite_true, hle, if_false]
    refine ih (by omega) (by omega) (by omega) hhl hle1 ?_
    intro k hk1 hk2
    by_cases e2 : k = j
    · rw [e2]
      simpa using hle
    · exact hgt1 k hk1 (by omega)
  | case3 j arr i steps h =>
    rw [partitionLoop]
    simp only [h, dite_false]
    constructor
    · exact hle1
    · intro k hk1 hk2
      exact hgt1 k hk1 (by omega)

theorem partitionLoop_steps_shape (pivot : α) (low high j i : Int)
    (arr : List (ArrayBar α)) (steps : List (Step α)) :
    ∃ t, (partitionLoop le str pivot low high j arr i steps).2.2 = steps ++ t := by
  induction j, arr, i, steps using partitionLoop.induct le str pivot low high with
  | case1 j arr i steps h steps1 hle arr2 steps2 ih =>
    rw [partitionLoop]
    simp only [h, dite_true, hle, if_true]
    obtain ⟨t, ht⟩ := ih
    refine ⟨[compareStep str pivot low high j arr, swapStep str high (i + 1) j arr2] ++ t, ?_⟩
    simp only [steps2, steps1, arr2, List.append_assoc, List.singleton_append] at ht ⊢
    rw [ht]
  | case2 j arr i steps h steps1 hle ih =>
    rw [partitionLoop]
    simp only [h, dite_true, hle, Bool.false_eq_true, if_false]
    obtain ⟨t, ht⟩ := ih
    refine ⟨[compareStep str pivot low high j arr] ++ t, ?_⟩
    simp only [steps1, List.append_assoc, List.singleton_append] at ht ⊢
    rw [ht]
  | case3 j arr i steps h =>
    rw [partitionLoop]
    simp [h]

theorem partitionLoop_steps_values (pivot : α) (low high j i : Int)
    (arr : List (ArrayBar α)) (steps : List (Step α)) (hlow : 0 ≤ low)
    (hi : low - 1 ≤ i) (hij : i < j) (hhl : high ≤ (arr.length : Int)) :
    ∀ s ∈ (partitionLoop le str pivot low high j arr i steps).2.2,
      s ∈ steps ∨ (s.array.map ArrayBar.value).Perm (arr.map ArrayBar.value) := by
  induction j, arr, i, steps using partitionLoop.induct le str pivot low high with
  | case1 j arr i steps h steps1 hle arr2 steps2 ih =>
    rw [partitionLoop]
    simp only [h, dite_true, hle, if_true]
    intro s hs
    have harr2 : arr2 = swapI arr (i + 1) j := rfl
    have hlen : arr2.length = arr.length := by
      rw [harr2]
      exact length_swapI arr (i + 1) j
    have hperm2 : (arr2.map ArrayBar.value).Perm (arr.map ArrayBar.value) := by
      rw [harr2]
      exact (swapI_perm arr (i + 1) j (by omega) (by omega) (by omega) (by omega)).map _
    rcases ih (by omega) (by omega) (by omega) s hs with hmem | hperm
    · simp only [steps2, steps1] at hmem
      rcases List.mem_append.1 hmem with hmem1 | hmem1
      · rcases List.mem_append.1 hmem1 with hmem2 | hmem2
        · exact Or.inl hmem2
        · right
          rcases List.mem_singleton.1 hmem2 with rfl
          rw [compareStep_values]
      · right
        rcases List.mem_singleton.1 hmem1 with rfl
        exact hperm2
    · exact Or.inr (hperm.trans hperm2)
  | case2 j arr i steps h steps1 hle ih =>
    rw [partitionLoop]
    simp only [h, dite_true, hle, if_false]
    intro s hs
    rcases ih (by omega) (by omega) hhl s hs with hmem | hperm
    · simp only [steps1] at hmem
      rcases List.mem_append.1 hmem with hmem1 | hmem1
      · exact Or.inl hmem1
      · right
        rcases List.mem_singleton.1 hmem1 with rfl
        rw [compareStep_values]
    · exact Or.inr hperm
  | case3 j arr i steps h =>
    rw [partitionLoop]
    simp only [h, dite_false]
    intro s hs
    exact Or.inl hs

theorem partitionLoop_states (pivot : α) (low high j i : Int)
    (arr : List (ArrayBar α)) (steps : List (Step α))
    (hd : ∀ b ∈ arr, b.state = BarState.default) :
    (∀ b ∈ (partitionLoop le str pivot low high j arr i steps).1,
      b.state = BarState.default) ∧
    (∀ s ∈ (partitionLoop le str pivot low high j arr i steps).2.2, s ∈ steps ∨
      ((s.activeLineNumber = 4 ∨ s.activeLineNumber = 5) →
        ∀ b ∈ s.array, b.state = BarState.default)) := by
  induction j, arr, i, steps using partitionLoop.induct le str pivot low high with
  | case1 j arr i steps h steps1 hle arr2 steps2 ih =>
    rw [partitionLoop]
    simp only [h, dite_true, hle, if_true]
    have hd2 : ∀ b ∈ arr2, b.state = BarState.default := all_default_swapI (i + 1) j hd
    obtain ⟨ihA, ihS⟩ := ih hd2
    refine ⟨ihA, ?_⟩
    intro s hs
    rcases ihS s hs with hmem | himp
    · simp only [steps2, steps1] at hmem
      rcases List.mem_append.1 hmem with hmem1 | hmem1
      · rcases List.mem_append.1 hmem1 with hmem2 | hmem2
        · exact Or.inl hmem2
        · right
          rcases List.mem_singleton.1 hmem2 with rfl
          intro hline
          rcases hline with hl | hl <;> simp [compareStep] at hl
      · right
        rcases List.mem_singleton.1 hmem1 with rfl
        intro _
        simpa [swapStep] using hd2
    · exact Or.inr himp
  | case2 j arr i steps h steps1 hle ih =>
    rw [partitionLoop]
    simp only [h, dite_true, hle, if_false]
    obtain ⟨ihA, ihS⟩ := ih hd
    refine ⟨ihA, ?_⟩
    intro s hs
    rcases ihS s hs with hmem | himp
    · simp only [steps1] at hmem
      rcases List.mem_append.1 hmem with hmem1 | hmem1
      · exact Or.inl hmem1
      · right
        rcases List.mem_singleton.1 hmem1 with rfl
        intro hline
        rcases hline with hl | hl <;> simp [compareStep] at hl
    · exact Or.inr himp
  | case3 j arr i steps h =>
    rw [partitionLoop]
    simp only [h, dite_false]
    exact ⟨hd, fun s hs => Or.inl hs⟩

theorem quickSort_unfold (low high : Int) (arr : List (ArrayBar α)) (pc : Nat)
    (steps : List (Step α)) (arrP : List (ArrayBar α)) (i : Int) (stepsP : List (Step α))
    (arr2 : List (ArrayBar α)) (steps2 : List (Step α)) (arrL : List (ArrayBar α))
    (pcL : Nat) (stepsL : List (Step α)) (hlh : low < high)
    (hr : partitionLoop le str (getI arr high).value low high low arr (low - 1)
      (steps ++ [partitionStartStep low high arr]) = (arrP, i, stepsP))
    (h2 : arr2 = swapI arrP (i + 1) high)
    (h3 : steps2 = stepsP ++ [pivotPlacedStep str (getI arr high).value i (pc + 1) arr2])
    (hrL : quickSort le str low i arr2 (pc + 1) steps2 = (arrL, pcL, stepsL)) :
    quickSort le str low high arr pc steps
      = quickSort le str (i + 2) high arrL pcL stepsL := by
  subst h2
  subst h3
  rw [quickSort]
  rw [dif_pos hlh]
  simp only [hr, hrL]

theorem quickSort_length (low high : Int) (arr : List (ArrayBar α)) (pc : Nat)
    (steps : List (Step α)) :
    (quickSort le str low high arr pc steps).1.length = arr.length := by
  induction low, high, arr, pc, steps using quickSort.induct le str with
  | case1 low high arr pc steps hlh pivot steps1 arrP i stepsP hr arr2 steps2 arrL pcL
      stepsL hrL ihL ihR =>
    rw [quickSort_unfold le str low high arr pc steps arrP i stepsP arr2 steps2 arrL pcL
      stepsL hlh hr rfl rfl hrL]
    rw [ihR]
    have h1 : arrP.length = arr.length := by
      have := partitionLoop_length le str pivot low high low (low - 1) arr steps1
      rw [hr] at this
      exact this
    have h2 : arr2.length = arr.length := by
      have : arr2 = swapI arrP (i + 1) high := rfl
      rw [this, length_swapI, h1]
    have h3 : arrL.length = arr2.length := by
      have ha : arrL = (quickSort le str low i arr2 (pc + 1) steps2).1 := by rw [hrL]
      rw [ha]
      exact ihL
    omega
  | case2 low high arr pc steps hlh =>
    rw [quickSort]
    simp [hlh]

theorem quickSort_steps_shape (low high : Int) (arr : List (ArrayBar α)) (pc : Nat)
    (steps : List (Step α)) :
    ∃ t, (quickSort le str low high arr pc steps).2.2 = steps ++ t := by
  induction low, high, arr, pc, steps using quickSort.induct le str with
  | case1 low high arr pc steps hlh pivot steps1 arrP i stepsP hr arr2 steps2 arrL pcL
      stepsL hrL ihL ihR =>
    rw [quickSort_unfold le str low high arr pc steps arrP i stepsP arr2 steps2 arrL pcL
      stepsL hlh hr rfl rfl hrL]
    obtain ⟨tR, htR⟩ := ihR
    obtain ⟨tP, htP⟩ := partitionLoop_steps_shape le str pivot low high low (low - 1) arr steps1
    rw [hr] at htP
    simp only at htP
    obtain ⟨tL, htL⟩ := ihL
    rw [hrL] at htL
    simp only at htL
    refine ⟨[partitionStartStep low high arr] ++ tP
      ++ [pivotPlacedStep str pivot i (pc + 1) arr2] ++ tL ++ tR, ?_⟩
    rw [htR, htL]
    have hs2 : steps2 = stepsP ++ [pivotPlacedStep str pivot i (pc + 1) arr2] := rfl
    rw [hs2, htP]
    simp only [steps1]
    simp
  | case2 low high arr pc steps hlh =>
    rw [quickSort]
    simp [hlh]

theorem quickSort_perm (low high : Int) (arr : List (ArrayBar α)) (pc : Nat)
    (steps : List (Step α)) (hlow : 0 ≤ low) (hhl : high < (arr.length : Int)) :
    ((quickSort le str low high arr pc steps).1).Perm arr := by
  induction low, high, arr, pc, steps using quickSort.induct le str with
  | case1 low high arr pc steps hlh pivot steps1 arrP i stepsP hr arr2 steps2 arrL pcL
      stepsL hrL ihL ihR =>
    rw [quickSort_unfold le str low high arr pc steps arrP i stepsP arr2 steps2 arrL pcL
      stepsL hlh hr rfl rfl hrL]
    have hiM : low - 1 ≤ i := by
      have := partitionLoop_i_mono le str pivot low high low arr (low - 1) steps1
      rw [hr] at this
      exact this
    have hiH : i < high := by
      have := partitionLoop_i_lt le str pivot low high low arr (low - 1) steps1
        (by omega) (by omega)
      rw [hr] at this
      exact this
    have hlenP : arrP.length = arr.length := by
      have := partitionLoop_length le str pivot low high low (low - 1) arr steps1
      rw [hr] at this
      exact this
    have harr2 : arr2 = swapI arrP (i + 1) high := rfl
    have hlen2 : arr2.length = arr.length := by
      rw [harr2, length_swapI, hlenP]
    have hpermP : arrP.Perm arr := by
      have := partitionLoop_perm le str pivot low high low (low - 1) arr steps1
        hlow (by omega) (by omega) (by omega)
      rw [hr] at this
      exact this
    have hperm2 : arr2.Perm arrP := by
      rw [harr2]
      exact swapI_perm arrP (i + 1) high (by omega) (by omega) (by omega) (by omega)
    have hlenL : arrL.length = arr2.length := by
      have ha : arrL = (quickSort le str low i arr2 (pc + 1) steps2).1 := by rw [hrL]
      rw [ha]
      exact quickSort_length le str low i arr2 (pc + 1) steps2
    have hpermL : arrL.Perm arr2 := by
      have ha : arrL = (quickSort le str low i arr2 (pc + 1) steps2).1 := by rw [hrL]
      rw [ha]
      exact ihL hlow (by omega)
    exact (((ihR (by omega) (by omega)).trans hpermL).trans hperm2).trans hpermP
  | case2 low high arr pc steps hlh =>
    rw [quickSort]
    simp [hlh]

theorem quickSort_getI_outside (low high : Int) (arr : List (ArrayBar α)) (pc : Nat)
    (steps : List (Step α)) (hlow : 0 ≤ low) (hhl : high < (arr.length : Int)) :
    ∀ k, k < low ∨ high < k →
      getI (quickSort le str low high arr pc steps).1 k = getI arr k := by
  induction low, high, arr, pc, steps using quickSort.induct le str with
  | case1 low high arr pc steps hlh pivot steps1 arrP i stepsP hr arr2 steps2 arrL pcL
      stepsL hrL ihL ihR =>
    rw [quickSort_unfold le str low high arr pc steps arrP i stepsP arr2 steps2 arrL pcL
      stepsL hlh hr rfl rfl hrL]
    intro k hk
    have hiM : low - 1 ≤ i := by
      have := partitionLoop_i_mono le str pivot low high low arr (low - 1) steps1
      rw [hr] at this
      exact this
    have hiH : i < high := by
      have := partitionLoop_i_lt le str pivot low high low arr (low - 1) steps1
        (by omega) (by omega)
      rw [hr] at this
      exact this
    have hlenP : arrP.length = arr.length := by
      have := partitionLoop_length le str pivot low high low (low - 1) arr steps1
      rw [hr] at this
      exact this
    have harr2 : arr2 = swapI arrP (i + 1) high := rfl
    have hlen2 : arr2.length = arr.length := by
      rw [harr2, length_swapI, hlenP]
    have hlenL : arrL.length = arr2.length := by
      have ha : arrL = (quickSort le str low i arr2 (pc + 1) steps2).1 := by rw [hrL]
      rw [ha]
      exact quickSort_length le str low i arr2 (pc + 1) steps2
    have e1 : getI (quickSort le str (i + 2) high arrL pcL stepsL).1 k = getI arrL k :=
      ihR (by omega) (by omega) k (by omega)
    have e2 : getI arrL k = getI arr2 k := by
      have ha : arrL = (quickSort le str low i arr2 (pc + 1) steps2).1 := by rw [hrL]
      rw [ha]
      exact ihL hlow (by omega) k (by omega)
    have e3 : getI arr2 k = getI arrP k := by
      rw [harr2]
      exact getI_swapI_ne arrP (i + 1) high k (by omega) (by omega)
    have e4 : getI arrP k = getI arr k := by
      have := partitionLoop_getI_outside le str pivot low high low (low - 1) arr steps1
        (by omega) (by omega) k (by omega)
      rw [hr] at this
      exact this
    rw [e1, e2, e3, e4]
  | case2 low high arr pc steps hlh =>
    rw [quickSort]
    simp [hlh]

theorem quickSort_transfer (low high : Int) (arr : List (ArrayBar α)) (pc : Nat)
    (steps : List (Step α)) (hlow : 0 ≤ low) (hhl : high < (arr.length : Int)) :
    ∀ k, low ≤ k → k ≤ high → ∃ m, low ≤ m ∧ m ≤ high ∧
      getI (quickSort le str low high arr pc steps).1 k = getI arr m := by
  induction low, high, arr, pc, steps using quickSort.induct le str with
  | case1 low high arr pc steps hlh pivot steps1 arrP i stepsP hr arr2 steps2 arrL pcL
      stepsL hrL ihL ihR =>
    rw [quickSort_unfold le str low high arr pc steps arrP i stepsP arr2 steps2 arrL pcL
      stepsL hlh hr rfl rfl hrL]
    intro k hk1 hk2
    have hiM : low - 1 ≤ i := by
      have := partitionLoop_i_mono le str pivot low high low arr (low - 1) steps1
      rw [hr] at this
      exact this
    have hiH : i < high := by
      have := partitionLoop_i_lt le str pivot low high low arr (low - 1) steps1
        (by omega) (by omega)
      rw [hr] at this
      exact this
    have hlenP : arrP.length = arr.length := by
      have := partitionLoop_length le str pivot low high low (low - 1) arr steps1
      rw [hr] at this
      exact this
    have harr2 : arr2 = swapI arrP (i + 1) high := rfl
    have hlen2 : arr2.length = arr.length := by
      rw [harr2, length_swapI, hlenP]
    have hlenL : arrL.length = arr2.length := by
      have ha : arrL = (quickSort le str low i arr2 (pc + 1) steps2).1 := by rw [hrL]
      rw [ha]
      exact quickSort_length le str low i arr2 (pc + 1) steps2
    have eL : arrL = (quickSort le str low i arr2 (pc + 1) steps2).1 := by rw [hrL]
    have stageR : ∃ m, low ≤ m ∧ m ≤ high ∧
        getI (quickSort le str (i + 2) high arrL pcL stepsL).1 k = getI arrL m := by
      by_cases hc : i + 2 ≤ k
      · obtain ⟨m, h1, h2, h3⟩ := ihR (by omega) (by omega) k hc hk2
        exact ⟨m, by omega, h2, h3⟩
      · exact ⟨k, hk1, hk2, quickSort_getI_outside le str (i + 2) high arrL pcL stepsL
          (by omega) (by omega) k (by omega)⟩
    obtain ⟨kR, hkR1, hkR2, hkR3⟩ := stageR
    have stageL : ∃ m, low ≤ m ∧ m ≤ high ∧ getI arrL kR = getI arr2 m := by
      rw [eL]
      by_cases hc : kR ≤ i
      · obtain ⟨m, h1, h2, h3⟩ := ihL hlow (by omega) kR hkR1 hc
        exact ⟨m, h1, by omega, h3⟩
      · exact ⟨kR, hkR1, hkR2, quickSort_getI_outside le str low i arr2 (pc + 1) steps2
          hlow (by omega) kR (by omega)⟩
    obtain ⟨kL, hkL1, hkL2, hkL3⟩ := stageL
    have stageS : ∃ m, low ≤ m ∧ m ≤ high ∧ getI arr2 kL = getI arrP m := by
      by_cases hc1 : kL = i + 1
      · refine ⟨high, by omega, le_refl high, ?_⟩
        rw [harr2, hc1]
        exact getI_swapI_left arrP (i + 1) high (by omega) (by omega) (by omega) (by omega)
      · by_cases hc2 : kL = high
        · refine ⟨i + 1, by omega, by omega, ?_⟩
          rw [harr2, hc2]
          exact getI_swapI_right arrP (i + 1) high (by omega) (by omega)
        · refine ⟨kL, hkL1, hkL2, ?_⟩
          rw [harr2]
          exact getI_swapI_ne arrP (i + 1) high kL hc1 hc2
    obtain ⟨kS, hkS1, hkS2, hkS3⟩ := stageS
    have stageP : ∃ m, low ≤ m ∧ m ≤ high ∧ getI arrP kS = getI arr m := by
      by_cases hc : kS < high
      · have hh := partitionLoop_transfer le str pivot low high low (low - 1) arr steps1
          hlow (by omega) (by omega) (by omega) kS hkS1 hc
        rw [hr] at hh
        simp only at hh
        obtain ⟨m, h1, h2, h3⟩ := hh
        exact ⟨m, h1, by omega, h3⟩
      · have hx : kS = high := by omega
        have hh := partitionLoop_getI_outside le str pivot low high low (low - 1) arr steps1
          (by omega) (by omega) kS (Or.inr (by omega))
        rw [hr] at hh
        simp only at hh
        exact ⟨high, by omega, le_refl high, by rw [← hx]; exact hh⟩
    obtain ⟨kP, hkP1, hkP2, hkP3⟩ := stageP
    refine ⟨kP, hkP1, hkP2, ?_⟩
    rw [hkR3, hkL3, hkS3, hkP3]
  | case2 low high arr pc steps hlh =>
    rw [quickSort]
    simp only [hlh, dite_false]
    intro k hk1 hk2
    exact ⟨k, hk1, hk2, rfl⟩

theorem quickSort_steps_values (low high : Int) (arr : List (ArrayBar α)) (pc : Nat)
    (steps : List (Step α)) (hlow : 0 ≤ low) (hhl : high < (arr.length : Int)) :
    ∀ s ∈ (quickSort le str low high arr pc steps).2.2,
      s ∈ steps ∨ (s.array.map ArrayBar.value).Perm (arr.map ArrayBar.value) := by
  induction low, high, arr, pc, steps using quickSort.induct le str with
  | case1 low high arr pc steps hlh pivot steps1 arrP i stepsP hr arr2 steps2 arrL pcL
      stepsL hrL ihL ihR =>
    rw [quickSort_unfold le str low high arr pc steps arrP i stepsP arr2 steps2 arrL pcL
      stepsL hlh hr rfl rfl hrL]
    intro s hs
    have hiM : low - 1 ≤ i := by
      have := partitionLoop_i_mono le str pivot low high low arr (low - 1) steps1
      rw [hr] at this
      exact this
    have hiH : i < high := by
      have := partitionLoop_i_lt le str pivot low high low arr (low - 1) steps1
        (by omega) (by omega)
      rw [hr] at this
      exact this
    have hlenP : arrP.length = arr.length := by
      have := partitionLoop_length le str pivot low high low (low - 1) arr steps1
      rw [hr] at this
      exact this
    have harr2 : arr2 = swapI arrP (i + 1) high := rfl
    have hlen2 : arr2.length = arr.length := by
      rw [harr2, length_swapI, hlenP]
    have hpermP : (arrP.map ArrayBar.value).Perm (arr.map ArrayBar.value) := by
      have := partitionLoop_perm le str pivot low high low (low - 1) arr steps1
        hlow (by omega) (by omega) (by omega)
      rw [hr] at this
      exact this.map _
    have hperm2 : (arr2.map ArrayBar.value).Perm (arr.map ArrayBar.value) := by
      refine List.Perm.trans ?_ hpermP
      rw [harr2]
      exact (swapI_perm arrP (i + 1) high (by omega) (by omega) (by omega) (by omega)).map _
    have hpermL : (arrL.map ArrayBar.value).Perm (arr.map ArrayBar.value) := by
      refine List.Perm.trans ?_ hperm2
      have ha : arrL = (quickSort le str low i arr2 (pc + 1) steps2).1 := by rw [hrL]
      rw [ha]
      exact (quickSort_perm le str low i arr2 (pc + 1) steps2 hlow (by omega)).map _
    have hlenL : arrL.length = arr2.length := by
      have ha : arrL = (quickSort le str low i arr2 (pc + 1) steps2).1 := by rw [hrL]
      rw [ha]
      exact quickSort_length le str low i arr2 (pc + 1) steps2
    rcases ihR (by omega) (by omega) s hs with hmem | hperm
    · have hsL : stepsL = (quickSort le str low i arr2 (pc + 1) steps2).2.2 := by rw [hrL]
      rw [hsL] at hmem
      rcases ihL hlow (by omega) s hmem with hmem2 | hpermInner
      · have hs2 : steps2 = stepsP ++ [pivotPlacedStep str pivot i (pc + 1) arr2] := rfl
        rw [hs2] at hmem2
        rcases List.mem_append.1 hmem2 with hmem3 | hmem3
        · have hP := partitionLoop_steps_values le str pivot low high low (low - 1) arr steps1
            hlow (by omega) (by omega) (by omega) s
          rw [hr] at hP
          simp only at hP
          rcases hP hmem3 with hmem4 | hperm4
          · have hs1 : steps1 = steps ++ [partitionStartStep low high arr] := rfl
            rw [hs1] at hmem4
            rcases List.mem_append.1 hmem4 with hmem5 | hmem5
            · exact Or.inl hmem5
            · right
              rcases List.mem_singleton.1 hmem5 with rfl
              rw [partitionStartStep_values]
          · exact Or.inr hperm4
        · right
          rcases List.mem_singleton.1 hmem3 with rfl
          exact hperm2
      · exact Or.inr (hpermInner.trans hperm2)
    · exact Or.inr (hperm.trans hpermL)
  | case2 low high arr pc steps hlh =>
    rw [quickSort]
    simp only [hlh, dite_false]
    intro s hs
    exact Or.inl hs

theorem quickSort_states (low high : Int) (arr : List (ArrayBar α)) (pc : Nat)
    (steps : List (Step α)) (hd : ∀ b ∈ arr, b.state = BarState.default) :
    (∀ b ∈ (quickSort le str low high arr pc steps).1, b.state = BarState.default) ∧
    (∀ s ∈ (quickSort le str low high arr pc steps).2.2, s ∈ steps ∨
      ((s.activeLineNumber = 4 ∨ s.activeLineNumber = 5) →
        ∀ b ∈ s.array, b.state = BarState.default)) := by
  induction low, high, arr, pc, steps using quickSort.induct le str with
  | case1 low high arr pc steps hlh pivot steps1 arrP i stepsP hr arr2 steps2 arrL pcL
      stepsL hrL ihL ihR =>
    rw [quickSort_unfold le str low high arr pc steps arrP i stepsP arr2 steps2 arrL pcL
      stepsL hlh hr rfl rfl hrL]
    have hdP : ∀ b ∈ arrP, b.state = BarState.default := by
      have := (partitionLoop_states le str pivot low high low (low - 1) arr steps1 hd).1
      rw [hr] at this
      exact this
    have harr2 : arr2 = swapI arrP (i + 1) high := rfl
    have hd2 : ∀ b ∈ arr2, b.state = BarState.default := by
      rw [harr2]
      exact all_default_swapI (i + 1) high hdP
    obtain ⟨ihLA, ihLS⟩ := ihL hd2
    have hdL : ∀ b ∈ arrL, b.state = BarState.default := by
      have ha : arrL = (quickSort le str low i arr2 (pc + 1) steps2).1 := by rw [hrL]
      rw [ha]
      exact ihLA
    obtain ⟨ihRA, ihRS⟩ := ihR hdL
    refine ⟨ihRA, ?_⟩
    intro s hs
    rcases ihRS s hs with hmem | himp
    · have hsL : stepsL = (quickSort le str low i arr2 (pc + 1) steps2).2.2 := by rw [hrL]
      rw [hsL] at hmem
      rcases ihLS s hmem with hmem2 | himp2
      · have hs2 : steps2 = stepsP ++ [pivotPlacedStep str pivot i (pc + 1) arr2] := rfl
        rw [hs2] at hmem2
        rcases List.mem_append.1 hmem2 with hmem3 | hmem3
        · have hP := (partitionLoop_states le str pivot low high low (low - 1) arr steps1 hd).2 s
          rw [hr] at hP
          simp only at hP
          rcases hP hmem3 with hmem4 | himp4
          · have hs1 : steps1 = steps ++ [partitionStartStep low high arr] := rfl
            rw [hs1] at hmem4
            rcases List.mem_append.1 hmem4 with hmem5 | hmem5
            · exact Or.inl hmem5
            · right
              rcases List.mem_singleton.1 hmem5 with rfl
              intro hline
              rcases hline with hl | hl <;> simp [partitionStartStep] at hl
          · exact Or.inr himp4
        · right
          rcases List.mem_singleton.1 hmem3 with rfl
          intro _
          simpa [pivotPlacedStep] using hd2
      · exact Or.inr himp2
    · exact Or.inr himp
  | case2 low high arr pc steps hlh =>
    rw [quickSort]
    simp only [hlh, dite_false]
    exact ⟨hd, fun s hs => Or.inl hs⟩

end EngineLemmas

theorem intLe_true {a b : Int} (h : intLe a b = true) : a ≤ b := by
  simpa [intLe] using h

theorem intLe_false {a b : Int} (h : intLe a b = false) : b < a := by
  have := of_decide_eq_false h
  omega

theorem quickSort_sorted (str : Int → String) (low high : Int) (arr : List (ArrayBar Int))
    (pc : Nat) (steps : List (Step Int)) (hlow : 0 ≤ low)
    (hhl : high < (arr.length : Int)) :
    ∀ k1 k2, low ≤ k1 → k1 ≤ k2 → k2 ≤ high →
      (getI (quickSort intLe str low high arr pc steps).1 k1).value
        ≤ (getI (quickSort intLe str low high arr pc steps).1 k2).value := by
  induction low, high, arr, pc, steps using quickSort.induct intLe str with
  | case1 low high arr pc steps hlh pivot steps1 arrP i stepsP hr arr2 steps2 arrL pcL
      stepsL hrL ihL ihR =>
    rw [quickSort_unfold intLe str low high arr pc steps arrP i stepsP arr2 steps2 arrL
      pcL stepsL hlh hr rfl rfl hrL]
    have hiM : low - 1 ≤ i := by
      have := partitionLoop_i_mono intLe str pivot low high low arr (low - 1) steps1
      rw [hr] at this
      exact this
    have hiH : i < high := by
      have := partitionLoop_i_lt intLe str pivot low high low arr (low - 1) steps1
        (by omega) (by omega)
      rw [hr] at this
      exact this
    have hlenP : arrP.length = arr.length := by
      have := partitionLoop_length intLe str pivot low high low (low - 1) arr steps1
      rw [hr] at this
      exact this
    have harr2 : arr2 = swapI arrP (i + 1) high := rfl
    have hlen2 : arr2.length = arr.length := by
      rw [harr2, length_swapI, hlenP]
    have hlenL : arrL.length = arr2.length := by
      have ha : arrL = (quickSort intLe str low i arr2 (pc + 1) steps2).1 := by rw [hrL]
      rw [ha]
      exact quickSort_length intLe str low i arr2 (pc + 1) steps2
    have eL : arrL = (quickSort intLe str low i arr2 (pc + 1) steps2).1 := by rw [hrL]
    have hPart := partitionLoop_partition intLe str pivot low high low (low - 1) arr steps1
      hlow (by omega) (by omega) (by omega) (by omega)
      (fun k h1 h2 => absurd h2 (by omega))
      (fun k h1 h2 => absurd h2 (by omega))
    rw [hr] at hPart
    simp only at hPart
    obtain ⟨hA1, hA2⟩ := hPart
    have hPH : getI arrP high = getI arr high := by
      have := partitionLoop_getI_outside intLe str pivot low high low (low - 1) arr steps1
        (by omega) (by omega) high (Or.inr (le_refl high))
      rw [hr] at this
      exact this
    have hv1 : ∀ k, low ≤ k → k ≤ i → (getI arr2 k).value ≤ pivot := by
      intro k h1 h2
      rw [harr2, getI_swapI_ne arrP (i + 1) high k (by omega) (by omega)]
      exact intLe_true (hA1 k h1 h2)
    have hv2 : (getI arr2 (i + 1)).value = pivot := by
      rw [harr2, getI_swapI_left arrP (i + 1) high (by omega) (by omega) (by omega)
        (by omega), hPH]
    have hv3 : ∀ k, i + 2 ≤ k → k ≤ high → pivot < (getI arr2 k).value := by
      intro k h1 h2
      by_cases hc : k = high
      · rw [hc, harr2, getI_swapI_right arrP (i + 1) high (by omega) (by omega)]
        exact intLe_false (hA2 (i + 1) (by omega) (by omega))
      · rw [harr2, getI_swapI_ne arrP (i + 1) high k (by omega) hc]
        exact intLe_false (hA2 k (by omega) (by omega))
    have hL0 : ∀ k, (k < low ∨ i < k) → getI arrL k = getI arr2 k := by
      intro k hk
      rw [eL]
      exact quickSort_getI_outside intLe str low i arr2 (pc + 1) steps2 hlow (by omega) k hk
    have hL1 : ∀ k, low ≤ k → k ≤ i → (getI arrL k).value ≤ pivot := by
      intro k h1 h2
      rw [eL]
      obtain ⟨m, hm1, hm2, hm3⟩ := quickSort_transfer intLe str low i arr2 (pc + 1) steps2
        hlow (by omega) k h1 h2
      rw [hm3]
      exact hv1 m hm1 hm2
    have hLsorted : ∀ k1 k2, low ≤ k1 → k1 ≤ k2 → k2 ≤ i →
        (getI arrL k1).value ≤ (getI arrL k2).value := by
      intro k1 k2 h1 h2 h3
      rw [eL]
      exact ihL hlow (by omega) k1 k2 h1 h2 h3
    have hR0 : ∀ k, k < i + 2 →
        getI (quickSort intLe str (i + 2) high arrL pcL stepsL).1 k = getI arrL k := by
      intro k hk
      exact quickSort_getI_outside intLe str (i + 2) high arrL pcL stepsL (by omega)
        (by omega) k (Or.inl hk)
    have hRsorted := ihR (by omega) (by omega)
    intro k1 k2 hk1 hk12 hk2
    by_cases c2 : k2 ≤ i + 1
    · rw [hR0 k1 (by omega), hR0 k2 (by omega)]
      by_cases c2i : k2 ≤ i
      · exact hLsorted k1 k2 hk1 hk12 c2i
      · have hk2e : k2 = i + 1 := by omega
        have ev2 : (getI arrL k2).value = pivot := by
          rw [hk2e, hL0 (i + 1) (Or.inr (by omega)), hv2]
        rw [ev2]
        by_cases c1i : k1 ≤ i
        · exact hL1 k1 hk1 c1i
        · have hk1e : k1 = i + 1 := by omega
          rw [hk1e, hL0 (i + 1) (Or.inr (by omega)), hv2]
    · by_cases c1 : i + 2 ≤ k1
      · exact hRsorted k1 k2 c1 hk12 hk2
      · have hval2 : pivot < (getI (quickSort intLe str (i + 2) high arrL pcL
            stepsL).1 k2).value := by
          obtain ⟨m, hm1, hm2, hm3⟩ := quickSort_transfer intLe str (i + 2) high arrL pcL
            stepsL (by omega) (by omega) k2 (by omega) hk2
          rw [hm3, hL0 m (Or.inr (by omega))]
          exact hv3 m hm1 hm2
        have hval1 : (getI (quickSort intLe str (i + 2) high arrL pcL
            stepsL).1 k1).value ≤ pivot := by
          rw [hR0 k1 (by omega)]
          by_cases c1i : k1 ≤ i
          · exact hL1 k1 hk1 c1i
          · have hk1e : k1 = i + 1 := by omega
            rw [hk1e, hL0 (i + 1) (Or.inr (by omega)), hv2]
        omega
  | case2 low high arr pc steps hlh =>
    rw [quickSort]
    simp only [hlh, dite_false]
    intro k1 k2 hk1 hk12 hk2
    have he : k1 = k2 := by omega
    rw [he]

section TraceLemmas

variable {α : Type} [Inhabited α] (le : α → α → Bool) (str : α → String)

theorem generateSteps_decomp (array : List α) (arrB : List (ArrayBar α)) (pcB : Nat)
    (stepsB : List (Step α))
    (hq : quickSort le str 0 ((array.length : Int) - 1)
      (array.map (fun value => ⟨value, BarState.default⟩)) 0
      [⟨array.map (fun value => ⟨value, BarState.default⟩), -1, [], 1,
        "Starting Quick Sort algorithm", "Initializing Quick Sort"⟩] = (arrB, pcB, stepsB)) :
    generateSteps le str array = stepsB ++
      [⟨arrB.map (fun bar => { bar with state := BarState.sorted }), -1, [], 6,
        "Array is now sorted!",
        "Quick Sort complete after " ++ toString pcB ++ " partitions"⟩] := by
  rw [generateSteps]
  simp only [hq]

theorem generateSteps_head (array : List α) :
    (generateSteps le str array).head? = some ⟨array.map (fun value =>
      ⟨value, BarState.default⟩), -1, [], 1, "Starting Quick Sort algorithm",
      "Initializing Quick Sort"⟩ := by
  rcases hq : quickSort le str 0 ((array.length : Int) - 1)
      (array.map (fun value => ⟨value, BarState.default⟩)) 0
      [⟨array.map (fun value => ⟨value, BarState.default⟩), -1, [], 1,
        "Starting Quick Sort algorithm", "Initializing Quick Sort"⟩]
    with ⟨arrB, pcB, stepsB⟩
  rw [generateSteps_decomp le str array arrB pcB stepsB hq]
  obtain ⟨t, ht⟩ := quickSort_steps_shape le str 0 ((array.length : Int) - 1)
    (array.map (fun value => ⟨value, BarState.default⟩)) 0
    [⟨array.map (fun value => ⟨value, BarState.default⟩), -1, [], 1,
      "Starting Quick Sort algorithm", "Initializing Quick Sort"⟩]
  rw [hq] at ht
  simp only at ht
  rw [ht]
  simp

theorem generateSteps_length_ge (array : List α) :
    2 ≤ (generateSteps le str array).length := by
  rcases hq : quickSort le str 0 ((array.length : Int) - 1)
      (array.map (fun value => ⟨value, BarState.default⟩)) 0
      [⟨array.map (fun value => ⟨value, BarState.default⟩), -1, [], 1,
        "Starting Quick Sort algorithm", "Initializing Quick Sort"⟩]
    with ⟨arrB, pcB, stepsB⟩
  rw [generateSteps_decomp le str array arrB pcB stepsB hq]
  obtain ⟨t, ht⟩ := quickSort_steps_shape le str 0 ((array.length : Int) - 1)
    (array.map (fun value => ⟨value, BarState.default⟩)) 0
    [⟨array.map (fun value => ⟨value, BarState.default⟩), -1, [], 1,
      "Starting Quick Sort algorithm", "Initializing Quick Sort"⟩]
  rw [hq] at ht
  simp only at ht
  rw [ht]
  simp

end TraceLemmas

section StepLemmas

variable {α : Type} [Inhabited α] (le : α → α → Bool) (str : α → String)

theorem partitionLoop_base (pivot : α) (low high j : Int) (arr : List (ArrayBar α))
    (i : Int) (steps : List (Step α)) (h : ¬ j < high) :
    partitionLoop le str pivot low high j arr i steps = (arr, i, steps) := by
  rw [partitionLoop]
  simp [h]

theorem partitionLoop_step_false (pivot : α) (low high j : Int) (arr : List (ArrayBar α))
    (i : Int) (steps : List (Step α)) (h : j < high)
    (hle : le (getI arr j).value pivot = false) :
    partitionLoop le str pivot low high j arr i steps
      = partitionLoop le str pivot low high (j + 1) arr i
        (steps ++ [compareStep str pivot low high j arr]) := by
  rw [partitionLoop]
  simp only [h, dite_true, hle, Bool.false_eq_true, if_false]

theorem partitionLoop_step_true (pivot : α) (low high j : Int) (arr : List (ArrayBar α))
    (i : Int) (steps : List (Step α)) (h : j < high)
    (hle : le (getI arr j).value pivot = true) :
    partitionLoop le str pivot low high j arr i steps
      = partitionLoop le str pivot low high (j + 1) (swapI arr (i + 1) j) (i + 1)
        (steps ++ [compareStep str pivot low high j arr,
          swapStep str high (i + 1) j (swapI arr (i + 1) j)]) := by
  rw [partitionLoop]
  simp only [h, dite_true, hle, if_true]
  rw [List.append_assoc]
  rfl

theorem quickSort_base (low high : Int) (arr : List (ArrayBar α)) (pc : Nat)
    (steps : List (Step α)) (h : ¬ low < high) :
    quickSort le str low high arr pc steps = (arr, pc, steps) := by
  rw [quickSort]
  simp [h]

end StepLemmas


theorem buildTrace_nil : buildTrace [] =
    [⟨[], -1, [], 1, "Starting Quick Sort algorithm", "Initializing Quick Sort"⟩,
     ⟨[], -1, [], 6, "Array is now sorted!", "Quick Sort complete after 0 partitions"⟩] := by
  have hq : quickSort intLe intStr 0 ((([] : List Int).length : Int) - 1) [] 0
      [⟨[], -1, [], 1, "Starting Quick Sort algorithm", "Initializing Quick Sort"⟩]
      = ([], 0, [⟨[], -1, [], 1, "Starting Quick Sort algorithm",
          "Initializing Quick Sort"⟩]) :=
    quickSort_base intLe intStr _ _ _ _ _ (by norm_num)
  have hd := generateSteps_decomp intLe intStr [] [] 0
    [⟨[], -1, [], 1, "Starting Quick Sort algorithm", "Initializing Quick Sort"⟩]
    (by simpa using hq)
  rw [buildTrace, hd]
  simp
  rfl

theorem buildTrace_single_length (x : Int) : (buildTrace [x]).length = 2 := by
  have hq : quickSort intLe intStr 0 ((([x] : List Int).length : Int) - 1)
      [⟨x, BarState.default⟩] 0
      [⟨[⟨x, BarState.default⟩], -1, [], 1, "Starting Quick Sort algorithm",
        "Initializing Quick Sort"⟩]
      = ([⟨x, BarState.default⟩], 0,
        [⟨[⟨x, BarState.default⟩], -1, [], 1, "Starting Quick Sort algorithm",
          "Initializing Quick Sort"⟩]) :=
    quickSort_base intLe intStr _ _ _ _ _ (by norm_num)
  have hd := generateSteps_decomp intLe intStr [x] [⟨x, BarState.default⟩] 0
    [⟨[⟨x, BarState.default⟩], -1, [], 1, "Starting Quick Sort algorithm",
      "Initializing Quick Sort"⟩] (by simpa using hq)
  rw [buildTrace, hd]
  simp

theorem buildTraceJS_nan_eval : buildTraceJS [JSVal.nan] =
    [⟨[⟨JSVal.nan, BarState.default⟩], -1, [], 1, "Starting Quick Sort algorithm",
       "Initializing Quick Sort"⟩,
     ⟨[⟨JSVal.nan, BarState.sorted⟩], -1, [], 6, "Array is now sorted!",
       "Quick Sort complete after 0 partitions"⟩] := by
  have hq : quickSort jsLe jsStr 0 ((([JSVal.nan] : List JSVal).length : Int) - 1)
      [⟨JSVal.nan, BarState.default⟩] 0
      [⟨[⟨JSVal.nan, BarState.default⟩], -1, [], 1, "Starting Quick Sort algorithm",
        "Initializing Quick Sort"⟩]
      = ([⟨JSVal.nan, BarState.default⟩], 0,
        [⟨[⟨JSVal.nan, BarState.default⟩], -1, [], 1, "Starting Quick Sort algorithm",
          "Initializing Quick Sort"⟩]) :=
    quickSort_base jsLe jsStr _ _ _ _ _ (by norm_num)
  have hd := generateSteps_decomp jsLe jsStr [JSVal.nan] [⟨JSVal.nan, BarState.default⟩] 0
    [⟨[⟨JSVal.nan, BarState.default⟩], -1, [], 1, "Starting Quick Sort algorithm",
      "Initializing Quick Sort"⟩] (by simpa using hq)
  rw [buildTraceJS, hd]
  simp
  rfl


theorem buildTrace_pair : buildTrace [2, 1] =
    [⟨([⟨2, BarState.default⟩, ⟨1, BarState.default⟩] : List (ArrayBar Int)), -1, [], 1,
       "Starting Quick Sort algorithm", "Initializing Quick Sort"⟩,
     ⟨[⟨2, BarState.active⟩, ⟨1, BarState.pivot⟩], 1, [], 2,
       "Working with partition [0 to 1]",
       "Working on partition [0 to 1]. Since partition size == 2, elements inside partition will be sorted."⟩,
     ⟨[⟨2, BarState.comparing⟩, ⟨1, BarState.pivot⟩], 1, [0], 3,
       "Comparing 2 with pivot 1", "Comparing elements in partition [0 to 1]"⟩,
     ⟨[⟨1, BarState.default⟩, ⟨2, BarState.default⟩], 0, [], 5,
       "Placed pivot 1 at position 0", "Partition 1 complete"⟩,
     ⟨[⟨1, BarState.sorted⟩, ⟨2, BarState.sorted⟩], -1, [], 6,
       "Array is now sorted!", "Quick Sort complete after 1 partitions"⟩] := by
  have h1 : partitionLoop intLe intStr 1 0 1 1
      ([⟨2, BarState.default⟩, ⟨1, BarState.default⟩] : List (ArrayBar Int)) (-1)
      [⟨([⟨2, BarState.default⟩, ⟨1, BarState.default⟩] : List (ArrayBar Int)), -1, [], 1,
        "Starting Quick Sort algorithm", "Initializing Quick Sort"⟩,
       ⟨[⟨2, BarState.active⟩, ⟨1, BarState.pivot⟩], 1, [], 2,
        "Working with partition [0 to 1]",
        "Working on partition [0 to 1]. Since partition size == 2, elements inside partition will be sorted."⟩,
       ⟨[⟨2, BarState.comparing⟩, ⟨1, BarState.pivot⟩], 1, [0], 3,
        "Comparing 2 with pivot 1", "Comparing elements in partition [0 to 1]"⟩]
      = (([⟨2, BarState.default⟩, ⟨1, BarState.default⟩] : List (ArrayBar Int)), -1,
        [⟨([⟨2, BarState.default⟩, ⟨1, BarState.default⟩] : List (ArrayBar Int)), -1, [], 1,
          "Starting Quick Sort algorithm", "Initializing Quick Sort"⟩,
         ⟨[⟨2, BarState.active⟩, ⟨1, BarState.pivot⟩], 1, [], 2,
          "Working with partition [0 to 1]",
          "Working on partition [0 to 1]. Since partition size == 2, elements inside partition will be sorted."⟩,
         ⟨[⟨2, BarState.comparing⟩, ⟨1, BarState.pivot⟩], 1, [0], 3,
          "Comparing 2 with pivot 1", "Comparing elements in partition [0 to 1]"⟩]) :=
    partitionLoop_base intLe intStr 1 0 1 1 _ _ _ (by norm_num)
  have h0 : partitionLoop intLe intStr 1 0 1 0
      ([⟨2, BarState.default⟩, ⟨1, BarState.default⟩] : List (ArrayBar Int)) (-1)
      [⟨([⟨2, BarState.default⟩, ⟨1, BarState.default⟩] : List (ArrayBar Int)), -1, [], 1,
        "Starting Quick Sort algorithm", "Initializing Quick Sort"⟩,
       ⟨[⟨2, BarState.active⟩, ⟨1, BarState.pivot⟩], 1, [], 2,
        "Working with partition [0 to 1]",
        "Working on partition [0 to 1]. Since partition size == 2, elements inside partition will be sorted."⟩]
      = (([⟨2, BarState.default⟩, ⟨1, BarState.default⟩] : List (ArrayBar Int)), -1,
        [⟨([⟨2, BarState.default⟩, ⟨1, BarState.default⟩] : List (ArrayBar Int)), -1, [], 1,
          "Starting Quick Sort algorithm", "Initializing Quick Sort"⟩,
         ⟨[⟨2, BarState.active⟩, ⟨1, BarState.pivot⟩], 1, [], 2,
          "Working with partition [0 to 1]",
          "Working on partition [0 to 1]. Since partition size == 2, elements inside partition will be sorted."⟩,
         ⟨[⟨2, BarState.comparing⟩, ⟨1, BarState.pivot⟩], 1, [0], 3,
          "Comparing 2 with pivot 1", "Comparing elements in partition [0 to 1]"⟩]) := by
    rw [partitionLoop_step_false intLe intStr 1 0 1 0 _ _ _ (by norm_num) (by decide)]
    exact h1
  have hq : quickSort intLe intStr 0 ((([2, 1] : List Int).length : Int) - 1)
      (([2, 1] : List Int).map (fun value => ⟨value, BarState.default⟩)) 0
      [⟨([2, 1] : List Int).map (fun value => ⟨value, BarState.default⟩), -1, [], 1,
        "Starting Quick Sort algorithm", "Initializing Quick Sort"⟩]
      = ([⟨1, BarState.default⟩, ⟨2, BarState.default⟩], 1,
        [⟨([⟨2, BarState.default⟩, ⟨1, BarState.default⟩] : List (ArrayBar Int)), -1, [], 1,
          "Starting Quick Sort algorithm", "Initializing Quick Sort"⟩,
         ⟨[⟨2, BarState.active⟩, ⟨1, BarState.pivot⟩], 1, [], 2,
          "Working with partition [0 to 1]",
          "Working on partition [0 to 1]. Since partition size == 2, elements inside partition will be sorted."⟩,
         ⟨[⟨2, BarState.comparing⟩, ⟨1, BarState.pivot⟩], 1, [0], 3,
          "Comparing 2 with pivot 1", "Comparing elements in partition [0 to 1]"⟩,
         ⟨[⟨1, BarState.default⟩, ⟨2, BarState.default⟩], 0, [], 5,
          "Placed pivot 1 at position 0", "Partition 1 complete"⟩]) := by
    rw [quickSort_unfold intLe intStr 0 ((([2, 1] : List Int).length : Int) - 1)
      (([2, 1] : List Int).map (fun value => ⟨value, BarState.default⟩)) 0
      [⟨([2, 1] : List Int).map (fun value => ⟨value, BarState.default⟩), -1, [], 1,
        "Starting Quick Sort algorithm", "Initializing Quick Sort"⟩]
      ([⟨2, BarState.default⟩, ⟨1, BarState.default⟩] : List (ArrayBar Int)) (-1)
      [⟨([⟨2, BarState.default⟩, ⟨1, BarState.default⟩] : List (ArrayBar Int)), -1, [], 1,
        "Starting Quick Sort algorithm", "Initializing Quick Sort"⟩,
       ⟨[⟨2, BarState.active⟩, ⟨1, BarState.pivot⟩], 1, [], 2,
        "Working with partition [0 to 1]",
        "Working on partition [0 to 1]. Since partition size == 2, elements inside partition will be sorted."⟩,
       ⟨[⟨2, BarState.comparing⟩, ⟨1, BarState.pivot⟩], 1, [0], 3,
        "Comparing 2 with pivot 1", "Comparing elements in partition [0 to 1]"⟩]
      [⟨1, BarState.default⟩, ⟨2, BarState.default⟩]
      [⟨([⟨2, BarState.default⟩, ⟨1, BarState.default⟩] : List (ArrayBar Int)), -1, [], 1,
        "Starting Quick Sort algorithm", "Initializing Quick Sort"⟩,
       ⟨[⟨2, BarState.active⟩, ⟨1, BarState.pivot⟩], 1, [], 2,
        "Working with partition [0 to 1]",
        "Working on partition [0 to 1]. Since partition size == 2, elements inside partition will be sorted."⟩,
       ⟨[⟨2, BarState.comparing⟩, ⟨1, BarState.pivot⟩], 1, [0], 3,
        "Comparing 2 with pivot 1", "Comparing elements in partition [0 to 1]"⟩,
       ⟨[⟨1, BarState.default⟩, ⟨2, BarState.default⟩], 0, [], 5,
        "Placed pivot 1 at position 0", "Partition 1 complete"⟩]
      [⟨1, BarState.default⟩, ⟨2, BarState.default⟩] 1
      [⟨([⟨2, BarState.default⟩, ⟨1, BarState.default⟩] : List (ArrayBar Int)), -1, [], 1,
        "Starting Quick Sort algorithm", "Initializing Quick Sort"⟩,
       ⟨[⟨2, BarState.active⟩, ⟨1, BarState.pivot⟩], 1, [], 2,
        "Working with partition [0 to 1]",
        "Working on partition [0 to 1]. Since partition size == 2, elements inside partition will be sorted."⟩,
       ⟨[⟨2, BarState.comparing⟩, ⟨1, BarState.pivot⟩], 1, [0], 3,
        "Comparing 2 with pivot 1", "Comparing elements in partition [0 to 1]"⟩,
       ⟨[⟨1, BarState.default⟩, ⟨2, BarState.default⟩], 0, [], 5,
        "Placed pivot 1 at position 0", "Partition 1 complete"⟩]
      (by norm_num) h0 (by decide) (by decide)
      (quickSort_base intLe intStr 0 (-1) _ _ _ (by norm_num))]
    rw [quickSort_base intLe intStr (-1 + 2) ((([2, 1] : List Int).length : Int) - 1) _ _ _
      (by norm_num)]
  exact generateSteps_decomp intLe intStr [2, 1] _ _ _ hq |>.trans (by decide)

theorem pairwise_value_of_getI (L : List (ArrayBar Int))
    (h : ∀ k1 k2 : Int, 0 ≤ k1 → k1 ≤ k2 → k2 ≤ (L.length : Int) - 1 →
      (getI L k1).value ≤ (getI L k2).value) :
    (L.map ArrayBar.value).Pairwise (· ≤ ·) := by
  rw [List.pairwise_iff_getElem]
  intro a b ha hb hab
  have hla : a < L.length := by simpa using ha
  have hlb : b < L.length := by simpa using hb
  have := h a b (by omega) (by omega) (by omega)
  rw [getI_eq_getElem L a hla, getI_eq_getElem L b hlb] at this
  simpa using this

/-- C3: `buildTrace` (the embedding of `generateSteps`) is deterministic: two
calls on the same input produce structurally identical traces, with all
element values, state tags, pivot indices, comparing indices, line numbers
and narration strings equal; the embedding is a pure function of the input
(the source contains no randomness or tie-breaking in `generateSteps`), so
structural equality of repeated calls holds definitionally. -/
theorem buildTrace_deterministic : ∀ l : List Int, buildTrace l = buildTrace l :=
  fun _ => rfl

/-- C6: for every input, the first snapshot of the trace holds the input
values in their original order, every element tagged `default`, with
`pivotIndex = -1` (the "none" value) and an empty `comparing` list. -/
theorem buildTrace_first_snapshot (l : List Int) :
    (buildTrace l).head? = some ⟨l.map (fun value => ⟨value, BarState.default⟩),
      -1, [], 1, "Starting Quick Sort algorithm", "Initializing Quick Sort"⟩ :=
  generateSteps_head intLe intStr l

/-- C4 (amended): the engine performs no input validation and raises no
error: on any JavaScript input list, including malformed (non-numeric,
NaN-behaving) elements, `generateSteps` runs to completion and returns a
trace of at least two snapshots whose first snapshot is emitted
unconditionally, before any value is even inspected. -/
theorem buildTraceJS_no_validation (l : List JSVal) :
    2 ≤ (buildTraceJS l).length ∧
    (buildTraceJS l).head? = some ⟨l.map (fun value => ⟨value, BarState.default⟩),
      -1, [], 1, "Starting Quick Sort algorithm", "Initializing Quick Sort"⟩ :=
  ⟨generateSteps_length_ge jsLe jsStr l, generateSteps_head jsLe jsStr l⟩

/-- C4 (counterexample): on the malformed (non-numeric) input element
`JSVal.nan` the engine raises no `InvalidInputError` and does not return
"nothing": it emits a complete two-snapshot trace. -/
theorem buildTraceJS_nan_counterexample :
    buildTraceJS [JSVal.nan] =
      [⟨[⟨JSVal.nan, BarState.default⟩], -1, [], 1, "Starting Quick Sort algorithm",
         "Initializing Quick Sort"⟩,
       ⟨[⟨JSVal.nan, BarState.sorted⟩], -1, [], 6, "Array is now sorted!",
         "Quick Sort complete after 0 partitions"⟩] ∧
    (buildTraceJS [JSVal.nan]).length = 2 :=
  ⟨buildTraceJS_nan_eval, by rw [buildTraceJS_nan_eval]; rfl⟩

/-- C5: `quickSort` with `low ≥ high` returns immediately, emitting no
snapshot and leaving array, counter and steps untouched; consequently the
empty input and every single-element input produce a trace of exactly the
two snapshots (initial and terminal), with no error. -/
theorem buildTrace_trivial_inputs :
    (∀ (low high : Int) (arr : List (ArrayBar Int)) (pc : Nat) (steps : List (Step Int)),
      high ≤ low → quickSort intLe intStr low high arr pc steps = (arr, pc, steps)) ∧
    (buildTrace []).length = 2 ∧
    (∀ x : Int, (buildTrace [x]).length = 2) := by
  refine ⟨?_, ?_, ?_⟩
  · intro low high arr pc steps h
    exact quickSort_base intLe intStr low high arr pc steps (by omega)
  · rw [buildTrace_nil]
    rfl
  · exact buildTrace_single_length

/-- C5 (witness): the base-case equation applied at `low = 5`, `high = 3`. -/
theorem buildTrace_trivial_inputs_witness :
    (3 : Int) ≤ 5 ∧
    quickSort intLe intStr 5 3 [] 0 [] = ([], 0, []) ∧
    (buildTrace []).length = 2 ∧
    (buildTrace [7]).length = 2 :=
  ⟨by norm_num, buildTrace_trivial_inputs.1 5 3 [] 0 [] (by norm_num),
    buildTrace_trivial_inputs.2.1, buildTrace_trivial_inputs.2.2 7⟩

/-- C1: for every input, the last snapshot of the trace has its elements
sorted in non-decreasing order of `value`, and every element there is
tagged `sorted`. -/
theorem buildTrace_last_sorted (l : List Int) (s : Step Int)
    (hs : (buildTrace l).getLast? = some s) :
    (s.array.map ArrayBar.value).Pairwise (· ≤ ·) ∧
    ∀ b ∈ s.array, b.state = BarState.sorted := by
  rcases hq : quickSort intLe intStr 0 ((l.length : Int) - 1)
      (l.map (fun value => ⟨value, BarState.default⟩)) 0
      [⟨l.map (fun value => ⟨value, BarState.default⟩), -1, [], 1,
        "Starting Quick Sort algorithm", "Initializing Quick Sort"⟩]
    with ⟨arrB, pcB, stepsB⟩
  rw [buildTrace, generateSteps_decomp intLe intStr l arrB pcB stepsB hq,
    List.getLast?_concat] at hs
  rcases Option.some.inj hs with rfl
  have hlen : arrB.length = l.length := by
    have := quickSort_length intLe intStr 0 ((l.length : Int) - 1)
      (l.map (fun value => ⟨value, BarState.default⟩)) 0
      [⟨l.map (fun value => ⟨value, BarState.default⟩), -1, [], 1,
        "Starting Quick Sort algorithm", "Initializing Quick Sort"⟩]
    rw [hq] at this
    simpa using this
  constructor
  · have hmap : (List.map ArrayBar.value
        (arrB.map (fun bar => { bar with state := BarState.sorted })))
        = arrB.map ArrayBar.value := by
      rw [List.map_map]
      rfl
    simp only
    rw [hmap]
    apply pairwise_value_of_getI
    intro k1 k2 hk1 hk12 hk2
    have hs := quickSort_sorted intStr 0 ((l.length : Int) - 1)
      (l.map (fun value => ⟨value, BarState.default⟩)) 0
      [⟨l.map (fun value => ⟨value, BarState.default⟩), -1, [], 1,
        "Starting Quick Sort algorithm", "Initializing Quick Sort"⟩]
      (by omega) (by rw [List.length_map]; omega) k1 k2 hk1 hk12 (by omega)
    rw [hq] at hs
    simpa using hs
  · intro b hb
    simp only at hb
    rcases List.mem_map.1 hb with ⟨x, _, rfl⟩
    rfl

/-- C1 (witness): on `[2, 1]` the last snapshot is `[1, 2]`, both `sorted`. -/
theorem buildTrace_last_sorted_witness :
    (buildTrace [2, 1]).getLast? = some ⟨[⟨1, BarState.sorted⟩, ⟨2, BarState.sorted⟩],
      -1, [], 6, "Array is now sorted!", "Quick Sort complete after 1 partitions"⟩ ∧
    ((List.map ArrayBar.value ([⟨1, BarState.sorted⟩,
      ⟨2, BarState.sorted⟩] : List (ArrayBar Int))).Pairwise (· ≤ ·) ∧
      ∀ b ∈ ([⟨1, BarState.sorted⟩, ⟨2, BarState.sorted⟩] : List (ArrayBar Int)),
        b.state = BarState.sorted) :=
  ⟨by rw [buildTrace_pair]; rfl,
    buildTrace_last_sorted [2, 1] _ (by rw [buildTrace_pair]; rfl)⟩

/-- C2: every snapshot of the trace has an `array` of the input's length
whose multiset of values is exactly the multiset of input values: each
step is a permutation of the input, no value created, destroyed or
altered. -/
theorem buildTrace_snapshot_permutation (l : List Int) (s : Step Int)
    (hs : s ∈ buildTrace l) :
    s.array.length = l.length ∧ (s.array.map ArrayBar.value).Perm l := by
  have hbv : (l.map (fun value => (⟨value, BarState.default⟩ : ArrayBar Int))).map
      ArrayBar.value = l := by
    rw [List.map_map]
    exact List.map_id l
  rcases hq : quickSort intLe intStr 0 ((l.length : Int) - 1)
      (l.map (fun value => ⟨value, BarState.default⟩)) 0
      [⟨l.map (fun value => ⟨value, BarState.default⟩), -1, [], 1,
        "Starting Quick Sort algorithm", "Initializing Quick Sort"⟩]
    with ⟨arrB, pcB, stepsB⟩
  rw [buildTrace, generateSteps_decomp intLe intStr l arrB pcB stepsB hq] at hs
  have hperm : (s.array.map ArrayBar.value).Perm l := by
    rcases List.mem_append.1 hs with hmem | hmem
    · have hv := quickSort_steps_values intLe intStr 0 ((l.length : Int) - 1)
        (l.map (fun value => ⟨value, BarState.default⟩)) 0
        [⟨l.map (fun value => ⟨value, BarState.default⟩), -1, [], 1,
          "Starting Quick Sort algorithm", "Initializing Quick Sort"⟩]
        (by omega) (by simp) s
      rw [hq] at hv
      rcases hv hmem with hinit | hperm
      · rcases List.mem_singleton.1 hinit with rfl
        simp only
        rw [hbv]
      · rw [hbv] at hperm
        exact hperm
    · rcases List.mem_singleton.1 hmem with rfl
      simp only
      have hmap : (List.map ArrayBar.value
          (arrB.map (fun bar => { bar with state := BarState.sorted })))
          = arrB.map ArrayBar.value := by
        rw [List.map_map]
        rfl
      rw [hmap]
      have hp := quickSort_perm intLe intStr 0 ((l.length : Int) - 1)
        (l.map (fun value => ⟨value, BarState.default⟩)) 0
        [⟨l.map (fun value => ⟨value, BarState.default⟩), -1, [], 1,
          "Starting Quick Sort algorithm", "Initializing Quick Sort"⟩]
        (by omega) (by simp)
      rw [hq] at hp
      simp only at hp
      rw [← hbv]
      exact hp.map ArrayBar.value
  refine ⟨?_, hperm⟩
  have := hperm.length_eq
  simpa using this

/-- C2 (witness): the comparison snapshot of `buildTrace [2, 1]` has two
elements whose values `[2, 1]` are a permutation of the input. -/
theorem buildTrace_snapshot_permutation_witness :
    (⟨[⟨2, BarState.comparing⟩, ⟨1, BarState.pivot⟩], 1, [0], 3,
      "Comparing 2 with pivot 1", "Comparing elements in partition [0 to 1]"⟩ : Step Int)
      ∈ buildTrace [2, 1] ∧
    ((⟨[⟨2, BarState.comparing⟩, ⟨1, BarState.pivot⟩], 1, [0], 3,
      "Comparing 2 with pivot 1",
      "Comparing elements in partition [0 to 1]"⟩ : Step Int).array.length
        = ([2, 1] : List Int).length ∧
     ((⟨[⟨2, BarState.comparing⟩, ⟨1, BarState.pivot⟩], 1, [0], 3,
      "Comparing 2 with pivot 1",
      "Comparing elements in partition [0 to 1]"⟩ : Step Int).array.map
        ArrayBar.value).Perm [2, 1]) :=
  ⟨by rw [buildTrace_pair]; decide,
    buildTrace_snapshot_permutation [2, 1] _ (by rw [buildTrace_pair]; decide)⟩

/-- C7: when `arr[j].value ≤ pivot`, the loop increments `i`, swaps, and
emits a swap snapshot whose `array` is the post-swap working array taken
verbatim (a direct copy: no per-position state re-derivation), while the
comparison snapshot emitted just before it re-derives every state tag by
mapping over positions (pivot / comparing / active overrides). -/
theorem swap_snapshot_direct_copy (pivot low high j i : Int)
    (arr : List (ArrayBar Int)) (steps : List (Step Int)) (h : j < high)
    (hle : (getI arr j).value ≤ pivot) :
    partitionLoop intLe intStr pivot low high j arr i steps
      = partitionLoop intLe intStr pivot low high (j + 1) (swapI arr (i + 1) j) (i + 1)
        (steps ++
          [⟨mapWithIdx (fun idx bar =>
              { bar with state :=
                  if (idx : Int) = high then BarState.pivot
                  else if (idx : Int) = j then BarState.comparing
                  else if low ≤ (idx : Int) ∧ (idx : Int) ≤ high then BarState.active
                  else BarState.default }) arr,
            high, [j], 3,
            "Comparing " ++ intStr (getI arr j).value ++ " with pivot " ++ intStr pivot,
            "Comparing elements in partition [" ++ toString low ++ " to "
              ++ toString high ++ "]"⟩,
           ⟨swapI arr (i + 1) j,
            high, [i + 1, j], 4,
            "Swapped " ++ intStr (getI (swapI arr (i + 1) j) (i + 1)).value ++ " and "
              ++ intStr (getI (swapI arr (i + 1) j) j).value,
            "Swapping elements to maintain partition order"⟩]) := by
  rw [partitionLoop_step_true intLe intStr pivot low high j arr i steps h
    (by simp only [intLe, decide_eq_true_eq]; exact hle)]
  rfl

/-- C7 (witness): the swap equation at `arr = [3, 5]`, `pivot = 5`,
`low = 0`, `high = 1`, `j = 0`, `i = -1`. -/
theorem swap_snapshot_direct_copy_witness :
    (0 : Int) < 1 ∧
    (getI ([⟨3, BarState.default⟩, ⟨5, BarState.default⟩] : List (ArrayBar Int)) 0).value ≤ 5 ∧
    partitionLoop intLe intStr 5 0 1 0
        ([⟨3, BarState.default⟩, ⟨5, BarState.default⟩] : List (ArrayBar Int)) (-1) []
      = partitionLoop intLe intStr 5 0 1 1
        (swapI ([⟨3, BarState.default⟩, ⟨5, BarState.default⟩] : List (ArrayBar Int)) 0 0) 0
        ([] ++
          [⟨mapWithIdx (fun idx bar =>
              { bar with state :=
                  if (idx : Int) = 1 then BarState.pivot
                  else if (idx : Int) = 0 then BarState.comparing
                  else if 0 ≤ (idx : Int) ∧ (idx : Int) ≤ 1 then BarState.active
                  else BarState.default }) ([⟨3, BarState.default⟩, ⟨5, BarState.default⟩] : List (ArrayBar Int)),
            1, [0], 3,
            "Comparing " ++ intStr (getI ([⟨3, BarState.default⟩, ⟨5, BarState.default⟩] : List (ArrayBar Int)) 0).value ++ " with pivot " ++ intStr 5,
            "Comparing elements in partition [" ++ toString (0 : Int) ++ " to "
              ++ toString (1 : Int) ++ "]"⟩,
           ⟨swapI ([⟨3, BarState.default⟩, ⟨5, BarState.default⟩] : List (ArrayBar Int)) 0 0,
            1, [0, 0], 4,
            "Swapped " ++ intStr (getI (swapI ([⟨3, BarState.default⟩, ⟨5, BarState.default⟩] : List (ArrayBar Int)) 0 0) 0).value ++ " and "
              ++ intStr (getI (swapI ([⟨3, BarState.default⟩, ⟨5, BarState.default⟩] : List (ArrayBar Int)) 0 0) 0).value,
            "Swapping elements to maintain partition order"⟩]) := by
  refine ⟨by norm_num, by decide, ?_⟩
  have hw := swap_snapshot_direct_copy 5 0 1 0 (-1)
    ([⟨3, BarState.default⟩, ⟨5, BarState.default⟩] : List (ArrayBar Int)) [] (by norm_num) (by decide)
  simpa using hw

/-- C8: within one `partition(low, high)` invocation the boundary index `i`
(1) never decreases across the comparison loop, (2) stays at most
`high - 1` when the loop is entered with `i < j ≤ high`, and (3) is
initialised to `low - 1`: for `low < high`, `quickSort` runs the loop
starting at `i = low - 1`, then swaps the pivot to position `i + 1` and
recurses on `(low, i)` and `(i + 2, high)`. -/
theorem boundary_index_monotone :
    (∀ (pivot low high j i : Int) (arr : List (ArrayBar Int)) (steps : List (Step Int)),
      i ≤ (partitionLoop intLe intStr pivot low high j arr i steps).2.1) ∧
    (∀ (pivot low high j i : Int) (arr : List (ArrayBar Int)) (steps : List (Step Int)),
      i < j → j ≤ high →
      (partitionLoop intLe intStr pivot low high j arr i steps).2.1 ≤ high - 1) ∧
    (∀ (low high : Int) (arr : List (ArrayBar Int)) (pc : Nat) (steps : List (Step Int)),
      low < high →
      quickSort intLe intStr low high arr pc steps
        = match partitionLoop intLe intStr (getI arr high).value low high low arr (low - 1)
            (steps ++ [partitionStartStep low high arr]) with
          | (arrP, i, stepsP) =>
            match quickSort intLe intStr low i (swapI arrP (i + 1) high) (pc + 1)
                (stepsP ++ [pivotPlacedStep intStr (getI arr high).value i (pc + 1)
                  (swapI arrP (i + 1) high)]) with
            | (arrL, pcL, stepsL) => quickSort intLe intStr (i + 2) high arrL pcL stepsL) := by
  refine ⟨?_, ?_, ?_⟩
  · intro pivot low high j i arr steps
    exact partitionLoop_i_mono intLe intStr pivot low high j arr i steps
  · intro pivot low high j i arr steps hij hjh
    have := partitionLoop_i_lt intLe intStr pivot low high j arr i steps hij hjh
    omega
  · intro low high arr pc steps hlh
    rcases hr : partitionLoop intLe intStr (getI arr high).value low high low arr (low - 1)
      (steps ++ [partitionStartStep low high arr]) with ⟨arrP, i, stepsP⟩
    rcases hrL : quickSort intLe intStr low i (swapI arrP (i + 1) high) (pc + 1)
      (stepsP ++ [pivotPlacedStep intStr (getI arr high).value i (pc + 1)
        (swapI arrP (i + 1) high)]) with ⟨arrL, pcL, stepsL⟩
    rw [quickSort_unfold intLe intStr low high arr pc steps arrP i stepsP
      (swapI arrP (i + 1) high)
      (stepsP ++ [pivotPlacedStep intStr (getI arr high).value i (pc + 1)
        (swapI arrP (i + 1) high)]) arrL pcL stepsL hlh hr rfl rfl hrL]
    simp only [hrL]

/-- C8 (witness): the three parts applied at a concrete partition of
`[2, 1]` over the range `[0, 1]`. -/
theorem boundary_index_monotone_witness :
    (-1 : Int) ≤ (partitionLoop intLe intStr 1 0 1 0
      ([⟨2, BarState.default⟩, ⟨1, BarState.default⟩] : List (ArrayBar Int)) (-1) []).2.1 ∧
    ((-1 : Int) < 0 ∧ (0 : Int) ≤ 1 ∧
      (partitionLoop intLe intStr 1 0 1 0
        ([⟨2, BarState.default⟩, ⟨1, BarState.default⟩] : List (ArrayBar Int)) (-1) []).2.1 ≤ 0) ∧
    ((0 : Int) < 1 ∧
      quickSort intLe intStr 0 1 ([⟨2, BarState.default⟩, ⟨1, BarState.default⟩] : List (ArrayBar Int)) 0 []
        = match partitionLoop intLe intStr
            (getI ([⟨2, BarState.default⟩, ⟨1, BarState.default⟩] : List (ArrayBar Int)) 1).value 0 1 0
            ([⟨2, BarState.default⟩, ⟨1, BarState.default⟩] : List (ArrayBar Int)) (0 - 1)
            ([] ++ [partitionStartStep 0 1 ([⟨2, BarState.default⟩, ⟨1, BarState.default⟩] : List (ArrayBar Int))]) with
          | (arrP, i, stepsP) =>
            match quickSort intLe intStr 0 i (swapI arrP (i + 1) 1) (0 + 1)
                (stepsP ++ [pivotPlacedStep intStr
                  (getI ([⟨2, BarState.default⟩, ⟨1, BarState.default⟩] : List (ArrayBar Int)) 1).value i
                  (0 + 1) (swapI arrP (i + 1) 1)]) with
            | (arrL, pcL, stepsL) => quickSort intLe intStr (i + 2) 1 arrL pcL stepsL) := by
  refine ⟨boundary_index_monotone.1 1 0 1 0 (-1)
      ([⟨2, BarState.default⟩, ⟨1, BarState.default⟩] : List (ArrayBar Int)) [],
    ⟨by norm_num, by norm_num, boundary_index_monotone.2.1 1 0 1 0 (-1)
      ([⟨2, BarState.default⟩, ⟨1, BarState.default⟩] : List (ArrayBar Int)) [] (by norm_num) (by norm_num)⟩,
    ⟨by norm_num, boundary_index_monotone.2.2 0 1
      ([⟨2, BarState.default⟩, ⟨1, BarState.default⟩] : List (ArrayBar Int)) 0 [] (by norm_num)⟩⟩

/-- C9: when `arr[j].value ≤ pivot` and the incremented boundary `i + 1`
equals `j`, the element is swapped with itself (the array is unchanged)
and a swap snapshot is still emitted, with `comparing = [j, j]` (the same
index twice) and a narration naming the same value twice. -/
theorem self_swap_snapshot (pivot low high j i : Int) (arr : List (ArrayBar Int))
    (steps : List (Step Int)) (h : j < high) (hle : (getI arr j).value ≤ pivot)
    (hij : i + 1 = j) (hj0 : 0 ≤ j) (hjl : j < (arr.length : Int)) :
    partitionLoop intLe intStr pivot low high j arr i steps
      = partitionLoop intLe intStr pivot low high (j + 1) arr j
        (steps ++
          [compareStep intStr pivot low high j arr,
           ⟨arr, high, [j, j], 4,
            "Swapped " ++ intStr (getI arr j).value ++ " and "
              ++ intStr (getI arr j).value,
            "Swapping elements to maintain partition order"⟩]) := by
  rw [partitionLoop_step_true intLe intStr pivot low high j arr i steps h
    (by simp only [intLe, decide_eq_true_eq]; exact hle)]
  rw [hij, swapI_self arr j hj0 hjl]
  rfl

/-- C9 (witness): the self-swap equation at `arr = [3, 9]`, `pivot = 9`,
`j = 0`, `i = -1`: the emitted snapshot compares index 0 with itself and
narrates "Swapped 3 and 3". -/
theorem self_swap_snapshot_witness :
    (0 : Int) < 1 ∧
    (getI ([⟨3, BarState.default⟩, ⟨9, BarState.default⟩] : List (ArrayBar Int)) 0).value ≤ 9 ∧
    (-1 : Int) + 1 = 0 ∧
    partitionLoop intLe intStr 9 0 1 0
        ([⟨3, BarState.default⟩, ⟨9, BarState.default⟩] : List (ArrayBar Int)) (-1) []
      = partitionLoop intLe intStr 9 0 1 1
        ([⟨3, BarState.default⟩, ⟨9, BarState.default⟩] : List (ArrayBar Int)) 0
        ([] ++
          [compareStep intStr 9 0 1 0 ([⟨3, BarState.default⟩, ⟨9, BarState.default⟩] : List (ArrayBar Int)),
           ⟨([⟨3, BarState.default⟩, ⟨9, BarState.default⟩] : List (ArrayBar Int)), 1, [0, 0], 4,
            "Swapped " ++ intStr (getI ([⟨3, BarState.default⟩, ⟨9, BarState.default⟩] : List (ArrayBar Int)) 0).value ++ " and "
              ++ intStr (getI ([⟨3, BarState.default⟩, ⟨9, BarState.default⟩] : List (ArrayBar Int)) 0).value,
            "Swapping elements to maintain partition order"⟩]) := by
  refine ⟨by norm_num, by decide, by norm_num, ?_⟩
  exact self_swap_snapshot 9 0 1 0 (-1) ([⟨3, BarState.default⟩, ⟨9, BarState.default⟩] : List (ArrayBar Int))
    [] (by norm_num) (by decide) (by norm_num) (by norm_num) (by norm_num)

/-- C10: the state tag of every element of the private working array stays
`default` for the whole run (tags are derived only in fresh per-snapshot
copies, never written back); consequently every swap snapshot (line 4) and
every pivot-placed snapshot (line 5) - both direct copies of the working
array - has all elements tagged `default`, so the pivot-placed snapshot
carries no `pivot` highlight on the element it just placed. -/
theorem working_array_states_default :
    (∀ (low high : Int) (arr : List (ArrayBar Int)) (pc : Nat) (steps : List (Step Int)),
      (∀ b ∈ arr, b.state = BarState.default) →
      ∀ b ∈ (quickSort intLe intStr low high arr pc steps).1,
        b.state = BarState.default) ∧
    (∀ (l : List Int), ∀ s ∈ buildTrace l,
      (s.activeLineNumber = 4 ∨ s.activeLineNumber = 5) →
      ∀ b ∈ s.array, b.state = BarState.default) := by
  constructor
  · intro low high arr pc steps hd
    exact (quickSort_states intLe intStr low high arr pc steps hd).1
  · intro l s hs hline
    rcases hq : quickSort intLe intStr 0 ((l.length : Int) - 1)
        (l.map (fun value => ⟨value, BarState.default⟩)) 0
        [⟨l.map (fun value => ⟨value, BarState.default⟩), -1, [], 1,
          "Starting Quick Sort algorithm", "Initializing Quick Sort"⟩]
      with ⟨arrB, pcB, stepsB⟩
    rw [buildTrace, generateSteps_decomp intLe intStr l arrB pcB stepsB hq] at hs
    rcases List.mem_append.1 hs with hmem | hmem
    · have hst := (quickSort_states intLe intStr 0 ((l.length : Int) - 1)
        (l.map (fun value => ⟨value, BarState.default⟩)) 0
        [⟨l.map (fun value => ⟨value, BarState.default⟩), -1, [], 1,
          "Starting Quick Sort algorithm", "Initializing Quick Sort"⟩]
        (by intro b hb; rcases List.mem_map.1 hb with ⟨x, _, rfl⟩; rfl)).2 s
      rw [hq] at hst
      rcases hst hmem with hinit | himp
      · rcases List.mem_singleton.1 hinit with rfl
        simp only at hline
        omega
      · exact himp hline
    · rcases List.mem_singleton.1 hmem with rfl
      simp only at hline
      omega

/-- C10 (witness): the pivot-placed snapshot of `buildTrace [2, 1]` (line 5)
has both elements tagged `default`, and the working-array invariant applied
at a concrete all-default array. -/
theorem working_array_states_default_witness :
    ((⟨[⟨1, BarState.default⟩, ⟨2, BarState.default⟩], 0, [], 5,
      "Placed pivot 1 at position 0", "Partition 1 complete"⟩ : Step Int)
        ∈ buildTrace [2, 1] ∧
     ∀ b ∈ (⟨[⟨1, BarState.default⟩, ⟨2, BarState.default⟩], 0, [], 5,
      "Placed pivot 1 at position 0", "Partition 1 complete"⟩ : Step Int).array,
        b.state = BarState.default) ∧
    ((∀ b ∈ ([⟨7, BarState.default⟩] : List (ArrayBar Int)),
        b.state = BarState.default) ∧
     ∀ b ∈ (quickSort intLe intStr 0 0 [⟨7, BarState.default⟩] 0 []).1,
        b.state = BarState.default) :=
  ⟨⟨by rw [buildTrace_pair]; decide,
    working_array_states_default.2 [2, 1] _ (by rw [buildTrace_pair]; decide)
      (Or.inr rfl)⟩,
   ⟨by decide,
    working_array_states_default.1 0 0 [⟨7, BarState.default⟩] 0 [] (by decide)⟩⟩

end QuickShort
